import Mathlib

/-!
Verification of the showtime reconciliation engine (`src/lib/normalize.ts`,
`src/lib/reconcile.ts`) against its natural-language specification.

The TypeScript source is shallowly embedded: strings are Lean `String`s
(lists of characters), JavaScript `Map`s are association lists in insertion
order, thrown exceptions (from `Date#toISOString` on an invalid date) are
modelled with `Option`, and instants are epoch milliseconds (`Int`).
-/

namespace Engine

/-! ## Character classes of the JavaScript regexp escapes `\w` and `\s` -/

/-- The JavaScript regexp class `\w`: ASCII letters, digits and underscore. -/
def jsIsWordChar (c : Char) : Bool :=
  decide (48 ≤ c.toNat ∧ c.toNat ≤ 57) ||
  decide (65 ≤ c.toNat ∧ c.toNat ≤ 90) ||
  decide (97 ≤ c.toNat ∧ c.toNat ≤ 122) ||
  decide (c.toNat = 95)

/-- The JavaScript regexp class `\s` (also the set trimmed by
`String#trim`): tab through carriage return, space, NBSP, and the Unicode
space separators, line separators and BOM. -/
def jsIsWhitespace (c : Char) : Bool :=
  decide (9 ≤ c.toNat ∧ c.toNat ≤ 13) ||
  decide (c.toNat = 32) ||
  decide (c.toNat = 160) ||
  decide (c.toNat = 5760) ||
  decide (8192 ≤ c.toNat ∧ c.toNat ≤ 8202) ||
  decide (c.toNat = 8232) ||
  decide (c.toNat = 8233) ||
  decide (c.toNat = 8239) ||
  decide (c.toNat = 8287) ||
  decide (c.toNat = 12288) ||
  decide (c.toNat = 65279)

/-- ASCII uppercase letter test, the ASCII case of
`String#toLowerCase` (`Char.toLower` implements exactly the JavaScript
behaviour on this range). -/
def isAsciiUpper (c : Char) : Bool :=
  decide (65 ≤ c.toNat ∧ c.toNat ≤ 90)

/-- Modelled from the runtime: the per-code-point effect of
`String#toLowerCase`, which applies the Default Unicode lowercase
mappings.  The model is exact on every mapping whose output can contain
a `\w` character: ASCII `A`–`Z`, KELVIN SIGN U+212A (which lowercases to
the ASCII letter `k`), and LATIN CAPITAL LETTER I WITH DOT ABOVE U+0130
(whose full lowercasing is `i` followed by COMBINING DOT ABOVE U+0307).
Every other code point with a lowercase mapping maps a single non-word
non-whitespace character to a single non-word non-whitespace character
(Unicode lowercasing never produces whitespace, digits or underscores,
and no other mapping produces ASCII), so the subsequent
`replace(/[^\w\s]/g, " ")` sends both the character and its image to one
space: keeping those characters fixed is observationally equivalent for
the pipeline. -/
def jsToLowerChars (c : Char) : List Char :=
  if isAsciiUpper c then [Char.toLower c]
  else if c.toNat = 8490 then ['k']
  else if c.toNat = 304 then ['i', Char.ofNat 775]
  else [c]

/-- Lowercase word character: what `\w` matches minus uppercase letters.
Every character of a normalized title is either such a character or a
single space. -/
def isLowerWordChar (c : Char) : Bool :=
  jsIsWordChar c && !isAsciiUpper c

/-! ## The normalization pipeline of `normalizeTitle` -/

/-- One step of `replace(/[^\w\s]/g, " ")`: a character that is neither a
word character nor whitespace becomes a space. -/
def punctToSpace (c : Char) : Char :=
  if jsIsWordChar c || jsIsWhitespace c then c else ' '

/-- The effect of `replace(/\s+/g, " ")`: each maximal run of whitespace
characters is replaced by a single space. -/
def collapseWs : List Char → List Char
  | [] => []
  | [c] => if jsIsWhitespace c then [' '] else [c]
  | c :: d :: rest =>
    if jsIsWhitespace c && jsIsWhitespace d then collapseWs (d :: rest)
    else (if jsIsWhitespace c then ' ' else c) :: collapseWs (d :: rest)

/-- The effect of `String#trim`: drop whitespace from both ends. -/
def jsTrimChars (l : List Char) : List Char :=
  ((l.dropWhile jsIsWhitespace).reverse.dropWhile jsIsWhitespace).reverse

/-- String-level `trim`, used by the row cleaner on every field. -/
def jsTrimStr (s : String) : String :=
  String.mk (jsTrimChars s.data)

/-- The effect of `split(" ")`: cut at every single space character. -/
def splitOnSpace : List Char → List (List Char)
  | [] => [[]]
  | c :: rest =>
    if c = ' ' then [] :: splitOnSpace rest
    else
      match splitOnSpace rest with
      | [] => [[c]]
      | t :: ts => (c :: t) :: ts

/-- The `wordToDigit` lookup table from `normalize.ts`. -/
def wordToDigit : List (String × String) :=
  [("one", "1"), ("two", "2"), ("three", "3"), ("four", "4"), ("five", "5"),
   ("six", "6"), ("seven", "7"), ("eight", "8"), ("nine", "9"), ("ten", "10")]

/-- Modelled from the runtime: `wordToDigit[word]` is a JavaScript
property access on an object literal, so besides the ten own entries it
also finds the inherited `Object.prototype` properties, every one of
which is truthy and therefore survives the `|| word` fallback.  The
token array containing such a value is only ever observed through
`join(" ")`, which stringifies each element, so the model pairs each
inherited name directly with its stringification: `__proto__` yields
`Object.prototype` itself, whose string is the engine-independent
`[object Object]`; the function-valued properties stringify in the
NativeFunction form of ECMA-262, rendered here as Node prints them.
Only the all-lowercase names (`__proto__`, `constructor`) can ever be
looked up by `normalizeTitle`, whose tokens come out of `toLowerCase`;
the mixed-case entries are included for completeness and are
unreachable from the pipeline. -/
def objectPrototypeEntries : List (String × String) :=
  [("__proto__", "[object Object]"),
   ("constructor", "function Object() \x7b [native code] \x7d"),
   ("hasOwnProperty", "function hasOwnProperty() \x7b [native code] \x7d"),
   ("isPrototypeOf", "function isPrototypeOf() \x7b [native code] \x7d"),
   ("propertyIsEnumerable",
     "function propertyIsEnumerable() \x7b [native code] \x7d"),
   ("toLocaleString", "function toLocaleString() \x7b [native code] \x7d"),
   ("toString", "function toString() \x7b [native code] \x7d"),
   ("valueOf", "function valueOf() \x7b [native code] \x7d"),
   ("__defineGetter__", "function __defineGetter__() \x7b [native code] \x7d"),
   ("__defineSetter__", "function __defineSetter__() \x7b [native code] \x7d"),
   ("__lookupGetter__", "function __lookupGetter__() \x7b [native code] \x7d"),
   ("__lookupSetter__", "function __lookupSetter__() \x7b [native code] \x7d")]

/-- Object-key lookup `wordToDigit[word]`: the own properties first,
then the prototype chain (the key sets are disjoint, so the order of
the two lists cannot matter); `none` models `undefined`, the result for
every other name. -/
def wordToDigitLookup (w : String) : Option String :=
  ((wordToDigit ++ objectPrototypeEntries).find? (fun kv => kv.1 == w)).map
    (fun kv => kv.2)

/-- One token of the `.map((word) => wordToDigit[word] || word)` pass. -/
def mapToken (t : List Char) : List Char :=
  match wordToDigitLookup (String.mk t) with
  | some d => d.data
  | none => t

/-- The effect of `join(" ")`: concatenate tokens with single spaces. -/
def joinSpace : List (List Char) → List Char
  | [] => []
  | [t] => t
  | t :: ts => t ++ ' ' :: joinSpace ts

/-- Character-level body of `normalizeTitle`: lowercase, punctuation to
spaces, whitespace collapsing, trim, then number words to digits. -/
def normalizeChars (l : List Char) : List Char :=
  joinSpace
    (((splitOnSpace
        (jsTrimChars
          (collapseWs
            (((l.map jsToLowerChars).flatten).map punctToSpace)))).map mapToken))

/-- The exported `normalizeTitle` of `normalize.ts`. -/
def normalizeTitle (s : String) : String :=
  String.mk (normalizeChars s.data)

example : normalizeTitle ("Spider-Man: Homecoming") = ("spider man homecoming") := by decide
example : normalizeTitle ("Dune: Part Two") = ("dune part 2") := by decide
example : normalizeTitle ("DUNE PART 2") = ("dune part 2") := by decide
example : normalizeTitle ("  A   b  ") = ("a b") := by decide
example : normalizeTitle ("_") = ("_") := by decide
example : normalizeTitle ("!?!") = ("") := by decide

/-! ## Instants

Modelled from the spec: the JavaScript `Date` built-in used by
`makeKey` and `computeDiffs` is not part of the repository.  An instant
is epoch milliseconds; `new Date(string)` is modelled as a parser of the
ECMA-262 date-time string format (`YYYY-MM-DD[THH:MM[:SS[.s+]][Z|±HH:MM]]`),
returning `none` where the runtime would produce an invalid date (whose
`toISOString` throws); a timestamp without a UTC offset is taken as UTC,
modelling a runtime in the UTC zone. -/

/-- Days from the epoch 1970-01-01 of a proleptic Gregorian civil date. -/
def daysFromCivil (y : Int) (m d : Nat) : Int :=
  let ya : Int := if m ≤ 2 then y - 1 else y
  let era : Int := Int.ediv ya 400
  let yoe : Nat := (ya - era * 400).toNat
  let doy : Nat := (153 * ((m + 9) % 12) + 2) / 5 + (d - 1)
  let doe : Nat := yoe * 365 + yoe / 4 - yoe / 100 + doy
  era * 146097 + (doe : Int) - 719468

/-- Civil date (year, month, day) of a day count from the epoch. -/
def civilFromDays (z : Int) : Int × Nat × Nat :=
  let era : Int := Int.ediv (z + 719468) 146097
  let doe : Nat := (z + 719468 - era * 146097).toNat
  let yoe : Nat := (doe - doe / 1460 + doe / 36524 - doe / 146096) / 365
  let doy : Nat := doe - (365 * yoe + yoe / 4 - yoe / 100)
  let mp : Nat := (5 * doy + 2) / 153
  let d : Nat := doy - (153 * mp + 2) / 5 + 1
  let m : Nat := if mp < 10 then mp + 3 else mp - 9
  (((yoe : Int) + era * 400) + (if m ≤ 2 then 1 else 0), m, d)

/-- ASCII decimal digit test. -/
def isAsciiDigit (c : Char) : Bool :=
  decide (48 ≤ c.toNat ∧ c.toNat ≤ 57)

/-- Value of a string of decimal digits. -/
def digitsToNat (l : List Char) : Nat :=
  l.foldl (fun a c => a * 10 + (c.toNat - 48)) 0

/-- Reads exactly `n` decimal digits, returning their value and the rest. -/
def grabDigits (n : Nat) (l : List Char) : Option (Nat × List Char) :=
  if (l.take n).length == n && (l.take n).all isAsciiDigit then
    some (digitsToNat (l.take n), l.drop n)
  else
    none

/-- Reads the UTC-offset tail of a date-time string: empty (local time,
modelled as UTC), `Z`, or `±HH:MM`.  Returns the offset in minutes. -/
def parseTzOffset : List Char → Option Int
  | [] => some 0
  | ['Z'] => some 0
  | '+' :: rest =>
    match grabDigits 2 rest with
    | some (h, ':' :: rest2) =>
      match grabDigits 2 rest2 with
      | some (mi, []) => if h ≤ 23 ∧ mi ≤ 59 then some ((h * 60 + mi : Nat) : Int) else none
      | _ => none
    | _ => none
  | '-' :: rest =>
    match grabDigits 2 rest with
    | some (h, ':' :: rest2) =>
      match grabDigits 2 rest2 with
      | some (mi, []) => if h ≤ 23 ∧ mi ≤ 59 then some (-((h * 60 + mi : Nat) : Int)) else none
      | _ => none
    | _ => none
  | _ => none

/-- Validates time-of-day components (allowing `24:00:00.000`). -/
def validTime (h mi s ms : Nat) : Bool :=
  (decide (h ≤ 23) || (decide (h = 24) && decide (mi = 0) && decide (s = 0) && decide (ms = 0))) &&
  decide (mi ≤ 59) && decide (s ≤ 59)

/-- Reads `HH:MM[:SS[.s+]]` plus offset; yields hour, minute, second,
millisecond and offset minutes. -/
def parseTimePart (l : List Char) : Option (Nat × Nat × Nat × Nat × Int) :=
  match grabDigits 2 l with
  | some (h, ':' :: l1) =>
    match grabDigits 2 l1 with
    | some (mi, ':' :: l2) =>
      match grabDigits 2 l2 with
      | some (s, '.' :: l3) =>
        if (l3.takeWhile isAsciiDigit).isEmpty then none
        else
          match parseTzOffset (l3.dropWhile isAsciiDigit) with
          | some off =>
            if validTime h mi s (digitsToNat ((l3.takeWhile isAsciiDigit ++ ['0', '0', '0']).take 3)) then
              some (h, mi, s, digitsToNat ((l3.takeWhile isAsciiDigit ++ ['0', '0', '0']).take 3), off)
            else none
          | none => none
      | some (s, rest) =>
        match parseTzOffset rest with
        | some off => if validTime h mi s 0 then some (h, mi, s, 0, off) else none
        | none => none
      | none => none
    | some (mi, rest) =>
      match parseTzOffset rest with
      | some off => if validTime h mi 0 0 then some (h, mi, 0, 0, off) else none
      | none => none
    | none => none
  | _ => none

/-- Leap-year test of the Gregorian calendar. -/
def isLeapYear (y : Nat) : Bool :=
  (decide (y % 4 = 0) && !decide (y % 100 = 0)) || decide (y % 400 = 0)

/-- Number of days of month `m` of year `y`. -/
def daysInMonth (y m : Nat) : Nat :=
  if m = 2 then (if isLeapYear y then 29 else 28)
  else if m = 4 ∨ m = 6 ∨ m = 9 ∨ m = 11 then 30
  else 31

/-- Validates calendar-date components. -/
def validDate (y mo d : Nat) : Bool :=
  decide (1 ≤ mo) && decide (mo ≤ 12) && decide (1 ≤ d) && decide (d ≤ daysInMonth y mo)

/-- Epoch milliseconds of validated components (offset already checked). -/
def epochMillis (y mo d h mi s ms : Nat) (off : Int) : Int :=
  daysFromCivil (y : Int) mo d * 86400000 +
    ((h * 3600000 + mi * 60000 + s * 1000 + ms : Nat) : Int) - off * 60000

/-- Character-level date-time parser (see the section comment). -/
def parseJsDateChars (l : List Char) : Option Int :=
  match grabDigits 4 l with
  | some (y, []) =>
    if validDate y 1 1 then some (epochMillis y 1 1 0 0 0 0 0) else none
  | some (y, '-' :: l1) =>
    match grabDigits 2 l1 with
    | some (mo, []) =>
      if validDate y mo 1 then some (epochMillis y mo 1 0 0 0 0 0) else none
    | some (mo, '-' :: l2) =>
      match grabDigits 2 l2 with
      | some (d, []) =>
        if validDate y mo d then some (epochMillis y mo d 0 0 0 0 0) else none
      | some (d, 'T' :: l3) =>
        match parseTimePart l3 with
        | some (h, mi, s, ms, off) =>
          if validDate y mo d then some (epochMillis y mo d h mi s ms off) else none
        | none => none
      | _ => none
    | _ => none
  | _ => none

/-- The model of `new Date(string)` followed by a validity check: `none`
where `toISOString` would throw a `RangeError`. -/
def parseJsDate (s : String) : Option Int :=
  parseJsDateChars s.data

/-- Decimal digits of a natural number. -/
def natDigits (n : Nat) : List Char :=
  (toString n).data

/-- Zero-padded decimal representation of width `w`. -/
def padNum (w n : Nat) : List Char :=
  List.replicate (w - (natDigits n).length) '0' ++ natDigits n

/-- Year field of an ISO string: four digits, or the ECMA-262 expanded
signed six-digit form outside 0–9999. -/
def yearChars (y : Int) : List Char :=
  if 0 ≤ y ∧ y ≤ 9999 then padNum 4 y.toNat
  else (if y < 0 then '-' else '+') :: padNum 6 y.natAbs

/-- The model of `Date#toISOString`: `YYYY-MM-DDTHH:MM:SS.sssZ` in UTC. -/
def toISOString (t : Int) : String :=
  let msOfDay : Nat := (Int.emod t 86400000).toNat
  String.mk
    (yearChars (civilFromDays (Int.ediv t 86400000)).1 ++
     '-' :: padNum 2 (civilFromDays (Int.ediv t 86400000)).2.1 ++
     '-' :: padNum 2 (civilFromDays (Int.ediv t 86400000)).2.2 ++
     'T' :: padNum 2 (msOfDay / 3600000) ++
     ':' :: padNum 2 (msOfDay % 3600000 / 60000) ++
     ':' :: padNum 2 (msOfDay % 60000 / 1000) ++
     '.' :: padNum 3 (msOfDay % 1000) ++ ['Z'])

example : parseJsDate ("2025-03-15T20:00:00Z") = some 1742068800000 := by decide
example : toISOString 1742068800000 = ("2025-03-15T20:00:00.000Z") := by decide
example : parseJsDate ("2025-03-15T20:00:00.000Z") = some 1742068800000 := by decide
example : parseJsDate ("2025-03-15T20:00:00+00:00") = some 1742068800000 := by decide
example : parseJsDate ("2025-03-15T21:30:00+01:30") = some 1742068800000 := by decide
example : parseJsDate ("notadate") = none := by decide
example : parseJsDate ("") = none := by decide
example : parseJsDate ("2025-02-30") = none := by decide
example : parseJsDate ("2024-02-29") = (parseJsDate ("2024-02-29T00:00:00.000Z")) := by decide
example : toISOString 0 = ("1970-01-01T00:00:00.000Z") := by decide
example : toISOString (-1) = ("1969-12-31T23:59:59.999Z") := by decide

/-! ## Data model of `types.ts` and the Prisma `Showtime` row -/

/-- Raw CSV row (snake_case), as parsed upstream of the engine. -/
structure ShowtimeRow where
  theater_name : String
  movie_title : String
  auditorium : String
  start_time : String
  end_time : String
  language : String
  format : String
  rating : String
  last_updated : String
deriving DecidableEq, Repr

/-- Cleaned camelCase showtime data; all values strings. -/
structure ShowtimeData where
  theaterName : String
  movieTitle : String
  auditorium : String
  startTime : String
  endTime : String
  language : String
  format : String
  rating : String
  lastUpdated : String
deriving DecidableEq, Repr

/-- A stored `Showtime` row (the fields `reconcile` reads): Prisma `Date`
columns are instants, the rest strings. -/
structure Showtime where
  id : Int
  theaterName : String
  movieTitle : String
  auditorium : String
  startTime : Int
  endTime : Int
  language : String
  format : String
  rating : String
  lastUpdated : Int
deriving DecidableEq, Repr

/-- A single field-level change between an existing and incoming showtime. -/
structure FieldDiff where
  field : String
  oldValue : String
  newValue : String
deriving DecidableEq, Repr

/-- A showtime present in the CSV but not in the schedule. -/
structure AddAction where
  data : ShowtimeData
deriving DecidableEq, Repr

/-- A matched showtime with field-level differences. -/
structure UpdateAction where
  existingId : Int
  data : ShowtimeData
  diffs : List FieldDiff
deriving DecidableEq, Repr

/-- A scheduled showtime absent from the CSV, to be soft-deleted. -/
structure ArchiveAction where
  existingId : Int
  data : ShowtimeData
deriving DecidableEq, Repr

/-- The reconciliation preview returned by the engine. -/
structure ReconciliationResult where
  adds : List AddAction
  updates : List UpdateAction
  archives : List ArchiveAction
deriving DecidableEq, Repr

/-! ## The reconciliation engine of `reconcile.ts`

JavaScript `Map`s are association lists in insertion order:
`Map#set` overwrites in place, insertion appends.  The `RangeError`
thrown by `toISOString` on an invalid date propagates out of
`reconcile`; it is modelled by `Option`, `none` meaning the call threw. -/

/-- Lookup in an insertion-ordered association list (`Map#get`). -/
def alFind? (m : List (String × α)) (k : String) : Option α :=
  (m.find? (fun kv => kv.1 == k)).map (fun kv => kv.2)

/-- Insertion-ordered `Map#set`: overwrite in place, else append. -/
def alSet (m : List (String × α)) (k : String) (v : α) : List (String × α) :=
  if m.any (fun kv => kv.1 == k) then
    m.map (fun kv => if kv.1 == k then (kv.1, v) else kv)
  else m ++ [(k, v)]

/-- The `csvRowToShowtimeData` converter: trim every field. -/
def csvRowToShowtimeData (row : ShowtimeRow) : ShowtimeData :=
  { theaterName := jsTrimStr row.theater_name
    movieTitle := jsTrimStr row.movie_title
    auditorium := jsTrimStr row.auditorium
    startTime := jsTrimStr row.start_time
    endTime := jsTrimStr row.end_time
    language := jsTrimStr row.language
    format := jsTrimStr row.format
    rating := jsTrimStr row.rating
    lastUpdated := jsTrimStr row.last_updated }

/-- The `makeKey` composite key: normalized title, a pipe, and the ISO
form of the parsed start time; `none` when `new Date` cannot parse. -/
def makeKey (normalizedTitle : String) (startTime : String) : Option String :=
  (parseJsDate startTime).map (fun i => normalizedTitle ++ ("|") ++ toISOString i)

/-- MatchKey of a cleaned row, as computed inside `reconcile`. -/
def rowKey (row : ShowtimeData) : Option String :=
  makeKey (normalizeTitle row.movieTitle) row.startTime

/-- The `existingToShowtimeData` converter: `Date` columns to ISO text. -/
def existingToShowtimeData (s : Showtime) : ShowtimeData :=
  { theaterName := s.theaterName
    movieTitle := s.movieTitle
    auditorium := s.auditorium
    startTime := toISOString s.startTime
    endTime := toISOString s.endTime
    language := s.language
    format := s.format
    rating := s.rating
    lastUpdated := toISOString s.lastUpdated }

/-- Step 1 of `reconcile`: keep rows whose trimmed title and start time
are non-empty, then clean them. -/
def cleanRows (csvRows : List ShowtimeRow) : List ShowtimeData :=
  (csvRows.filter (fun row =>
      !(jsTrimStr row.movie_title == ("")) && !(jsTrimStr row.start_time == ("")))).map
    csvRowToShowtimeData

/-- Loop body of step 2: first occurrence wins. -/
def dedupeAux : List ShowtimeData → List (String × ShowtimeData) →
    Option (List (String × ShowtimeData))
  | [], acc => some acc
  | row :: rest, acc =>
    match rowKey row with
    | none => none
    | some key =>
      dedupeAux rest (if acc.any (fun kv => kv.1 == key) then acc else acc ++ [(key, row)])

/-- Step 2 of `reconcile`: deduplicate cleaned rows by composite key. -/
def dedupeRows (rows : List ShowtimeData) : Option (List (String × ShowtimeData)) :=
  dedupeAux rows []

/-- An entry of the existing-showtime map: stored id plus its data. -/
structure ExistingEntry where
  id : Int
  data : ShowtimeData
deriving DecidableEq, Repr

/-- Loop body of step 3: last write wins via `Map#set`. -/
def buildExistingAux : List Showtime → List (String × ExistingEntry) →
    Option (List (String × ExistingEntry))
  | [], acc => some acc
  | s :: rest, acc =>
    match makeKey (normalizeTitle s.movieTitle) (toISOString s.startTime) with
    | none => none
    | some key => buildExistingAux rest (alSet acc key ⟨s.id, existingToShowtimeData s⟩)

/-- Step 3 of `reconcile`: index existing showtimes by composite key. -/
def buildExistingMap (existingShowtimes : List Showtime) :
    Option (List (String × ExistingEntry)) :=
  buildExistingAux existingShowtimes []

/-- The fixed field list iterated by `computeDiffs`. -/
def diffFields : List String :=
  [("theaterName"), ("movieTitle"), ("auditorium"), ("endTime"),
   ("language"), ("format"), ("rating"), ("lastUpdated")]

/-- Dynamic field access `record[field]` over `ShowtimeData`. -/
def getField (r : ShowtimeData) (f : String) : String :=
  if f == ("theaterName") then r.theaterName
  else if f == ("movieTitle") then r.movieTitle
  else if f == ("auditorium") then r.auditorium
  else if f == ("startTime") then r.startTime
  else if f == ("endTime") then r.endTime
  else if f == ("language") then r.language
  else if f == ("format") then r.format
  else if f == ("rating") then r.rating
  else r.lastUpdated

/-- Per-field comparison value: date fields go through
`new Date(v).toISOString()` (which can throw, hence `Option`). -/
def canonField (f : String) (v : String) : Option String :=
  if f == ("endTime") || f == ("lastUpdated") then (parseJsDate v).map toISOString
  else some v

/-- Loop body of `computeDiffs` over the field list. -/
def computeDiffsAux (existing incoming : ShowtimeData) :
    List String → List FieldDiff → Option (List FieldDiff)
  | [], acc => some acc
  | f :: fs, acc =>
    match canonField f (getField existing f), canonField f (getField incoming f) with
    | some oldVal, some newVal =>
      computeDiffsAux existing incoming fs
        (if oldVal ≠ newVal then acc ++ [⟨f, oldVal, newVal⟩] else acc)
    | _, _ => none

/-- The `computeDiffs` of `reconcile.ts`: one `FieldDiff` per differing
field over `diffFields`, date fields compared as canonical instants. -/
def computeDiffs (existing incoming : ShowtimeData) : Option (List FieldDiff) :=
  computeDiffsAux existing incoming diffFields []

/-- Accumulator of the step-4 classification loop. -/
structure ClassifyState where
  adds : List AddAction
  updates : List UpdateAction
  matched : List String
deriving DecidableEq, Repr

/-- Loop body of step 4: each deduped row becomes an add, an update
(when diffs are non-empty) or a matched no-op. -/
def classifyAux (em : List (String × ExistingEntry)) :
    List (String × ShowtimeData) → ClassifyState → Option ClassifyState
  | [], st => some st
  | kv :: rest, st =>
    match alFind? em kv.1 with
    | some ex =>
      match computeDiffs ex.data kv.2 with
      | some diffs =>
        classifyAux em rest
          { st with
            matched := st.matched ++ [kv.1]
            updates :=
              if diffs.length > 0 then st.updates ++ [⟨ex.id, kv.2, diffs⟩] else st.updates }
      | none => none
    | none => classifyAux em rest { st with adds := st.adds ++ [⟨kv.2⟩] }

/-- Step 5 of `reconcile`: archive every existing key never matched. -/
def collectArchives (em : List (String × ExistingEntry)) (matched : List String) :
    List ArchiveAction :=
  em.filterMap (fun kv =>
    if matched.contains kv.1 then none else some ⟨kv.2.id, kv.2.data⟩)

/-- The exported `reconcile` of `reconcile.ts`; `none` models the
`RangeError` thrown on an unparseable timestamp. -/
def reconcile (csvRows : List ShowtimeRow) (existingShowtimes : List Showtime) :
    Option ReconciliationResult :=
  match dedupeRows (cleanRows csvRows) with
  | none => none
  | some deduped =>
    match buildExistingMap existingShowtimes with
    | none => none
    | some existingMap =>
      match classifyAux existingMap deduped ⟨[], [], []⟩ with
      | none => none
      | some st =>
        some ⟨st.adds, st.updates, collectArchives existingMap st.matched⟩

/-- A sample CSV row used by concrete checks below. -/
def sampleRow : ShowtimeRow :=
  { theater_name := ("Grand")
    movie_title := ("DUNE PART 2")
    auditorium := ("Auditorium 1")
    start_time := ("2025-03-15T20:00:00Z")
    end_time := ("2025-03-15T23:00:00Z")
    language := ("English")
    format := ("IMAX")
    rating := ("PG-13")
    last_updated := ("2025-03-01T00:00:00Z") }

/-- A stored showtime matching `sampleRow` up to title formatting. -/
def sampleExisting : Showtime :=
  { id := 1
    theaterName := ("Grand")
    movieTitle := ("Dune: Part Two")
    auditorium := ("Auditorium 1")
    startTime := 1742068800000
    endTime := 1742079600000
    language := ("English")
    format := ("IMAX")
    rating := ("PG-13")
    lastUpdated := 1740787200000 }

example : reconcile [sampleRow] [sampleExisting] =
    some ⟨[], [⟨1, csvRowToShowtimeData sampleRow,
      [⟨("movieTitle"), ("Dune: Part Two"), ("DUNE PART 2")⟩]⟩], []⟩ := by decide
example : reconcile [] [sampleExisting] =
    some ⟨[], [], [⟨1, existingToShowtimeData sampleExisting⟩]⟩ := by decide
example : reconcile [sampleRow] [] =
    some ⟨[⟨csvRowToShowtimeData sampleRow⟩], [], []⟩ := by decide
example : reconcile [{ sampleRow with movie_title := ("bad"), start_time := ("soon") }] [] =
    none := by decide

/-! ## Determinism and purity (C2) -/

/-- C2: `reconcile` is a pure function of its inputs — modelled without
any effect monad, so calling it twice on the same inputs necessarily
yields the identical preview, collection contents and order included. -/
theorem reconcile_deterministic (rows₁ rows₂ : List ShowtimeRow)
    (ex₁ ex₂ : List Showtime) (hrows : rows₁ = rows₂) (hex : ex₁ = ex₂) :
    reconcile rows₁ ex₁ = reconcile rows₂ ex₂ := by
  rw [hrows, hex]

/-- Witness for C2 at concrete inputs. -/
theorem reconcile_deterministic_witness :
    reconcile [sampleRow] [sampleExisting] = reconcile [sampleRow] [sampleExisting] :=
  reconcile_deterministic [sampleRow] [sampleRow] [sampleExisting] [sampleExisting] rfl rfl

/-! ## Required-field exclusion (C8) -/

/-- C8: a row whose trimmed movie title or start time is empty is
excluded from reconciliation entirely: the preview is the same as if the
row had not been in the batch at all (so it contributes no add or
update and blocks no archive). -/
theorem reconcile_ignores_required_field_violations (pre post : List ShowtimeRow)
    (bad : ShowtimeRow) (existing : List Showtime)
    (h : jsTrimStr bad.movie_title = ("") ∨ jsTrimStr bad.start_time = ("")) :
    reconcile (pre ++ bad :: post) existing = reconcile (pre ++ post) existing := by
  have hcond : (!(jsTrimStr bad.movie_title == ("")) &&
      !(jsTrimStr bad.start_time == (""))) = false := by
    rcases h with h | h <;> simp [h]
  have hclean : cleanRows (pre ++ bad :: post) = cleanRows (pre ++ post) := by
    unfold cleanRows
    rw [List.filter_append, List.filter_append, List.filter_cons_of_neg (by simpa using hcond)]
  unfold reconcile
  rw [hclean]

/-- Witness for C8: a whitespace-only title is dropped. -/
theorem reconcile_ignores_required_field_violations_witness :
    reconcile ([{ sampleRow with movie_title := ("   ") }] ++ [sampleRow]) [] =
      reconcile ([] ++ [sampleRow]) [] := by
  have h := reconcile_ignores_required_field_violations []
    [sampleRow] { sampleRow with movie_title := ("   ") } [] (Or.inl (by decide))
  simpa using h

/-! ## Malformed timestamps fail the operation (C9) -/

/-- Deduplication fails as soon as any row's key construction fails. -/
theorem dedupeAux_none_of_bad_row (rows : List ShowtimeData)
    (r : ShowtimeData) (hr : r ∈ rows) (hk : rowKey r = none) :
    ∀ acc, dedupeAux rows acc = none := by
  induction rows with
  | nil => cases hr
  | cons head tail ih =>
    intro acc
    rcases List.mem_cons.mp hr with rfl | hmem
    · simp [dedupeAux, hk]
    · unfold dedupeAux
      cases hhead : rowKey head with
      | none => rfl
      | some k => exact ih hmem _

/-- Membership of a cleaned row in the output of step 1. -/
theorem mem_cleanRows (csvRows : List ShowtimeRow) (row : ShowtimeRow)
    (hmem : row ∈ csvRows)
    (ht : jsTrimStr row.movie_title ≠ (""))
    (hs : jsTrimStr row.start_time ≠ ("")) :
    csvRowToShowtimeData row ∈ cleanRows csvRows := by
  unfold cleanRows
  exact List.mem_map_of_mem _ (List.mem_filter.mpr ⟨hmem, by simp [ht, hs]⟩)

/-- C9: a row that passes the required-field filter but whose start time
`new Date` cannot parse makes the whole `reconcile` call fail (the
modelled `RangeError` from `toISOString`); no preview is produced. -/
theorem reconcile_fails_on_malformed_timestamp (csvRows : List ShowtimeRow)
    (existing : List Showtime) (row : ShowtimeRow) (hmem : row ∈ csvRows)
    (ht : jsTrimStr row.movie_title ≠ (""))
    (hs : jsTrimStr row.start_time ≠ (""))
    (hp : parseJsDate (jsTrimStr row.start_time) = none) :
    reconcile csvRows existing = none := by
  have hkey : rowKey (csvRowToShowtimeData row) = none := by
    simp [rowKey, makeKey, csvRowToShowtimeData, hp]
  have hded : dedupeRows (cleanRows csvRows) = none :=
    dedupeAux_none_of_bad_row _ _ (mem_cleanRows csvRows row hmem ht hs) hkey []
  unfold reconcile
  rw [hded]

/-- Witness for C9: an unparseable start time aborts the batch. -/
theorem reconcile_fails_on_malformed_timestamp_witness :
    reconcile [{ sampleRow with start_time := ("soon") }] [sampleExisting] = none :=
  reconcile_fails_on_malformed_timestamp _ _ { sampleRow with start_time := ("soon") }
    (List.mem_singleton.mpr rfl) (by decide) (by decide) (by decide)

/-! ## Deduplication keeps the first occurrence (C7) -/

theorem option_or_none (o : Option α) : o.or none = o := by
  cases o <;> rfl

theorem option_some_or (a : α) (o : Option α) : (Option.some a).or o = some a := rfl

theorem find?_append_or (l₁ l₂ : List α) (p : α → Bool) :
    (l₁ ++ l₂).find? p = (l₁.find? p).or (l₂.find? p) := by
  induction l₁ with
  | nil => simp [Option.none_or]
  | cons a l ih =>
    cases ha : p a with
    | true => rw [List.cons_append, List.find?_cons_of_pos _ ha, List.find?_cons_of_pos _ ha,
        option_some_or]
    | false => rw [List.cons_append, List.find?_cons_of_neg _ (by simp [ha]),
        List.find?_cons_of_neg _ (by simp [ha]), ih]

theorem alFind?_append_single (acc : List (String × α)) (k key : String) (v : α) :
    alFind? (acc ++ [(k, v)]) key =
      (alFind? acc key).or (if k == key then some v else none) := by
  unfold alFind?
  rw [find?_append_or]
  cases hk : (k == key) with
  | true =>
    have h1 : List.find? (fun kv => kv.1 == key) [(k, v)] = some (k, v) := by
      apply List.find?_cons_of_pos
      simpa using hk
    rw [h1, if_pos rfl]
    cases List.find? (fun kv => kv.1 == key) acc <;>
      simp [option_some_or, Option.none_or]
  | false =>
    have h1 : List.find? (fun kv => kv.1 == key) [(k, v)] = none := by
      apply List.find?_cons_of_neg
      simpa using hk
    rw [h1, if_neg (by simp [hk])]
    cases List.find? (fun kv => kv.1 == key) acc <;>
      simp [option_some_or, Option.none_or, option_or_none]

theorem any_eq_isSome_alFind? (m : List (String × α)) (k : String) :
    m.any (fun kv => kv.1 == k) = (alFind? m k).isSome := by
  induction m with
  | nil => rfl
  | cons kv rest ih =>
    cases hk : (kv.1 == k) with
    | true => simp [alFind?, List.find?_cons_of_pos _ hk, hk]
    | false =>
      rw [List.any_cons, hk, Bool.false_or, ih]
      unfold alFind?
      rw [List.find?_cons_of_neg _ (by simp [hk])]

theorem dedupeAux_cons_some (r : ShowtimeData) (rest : List ShowtimeData)
    (acc : List (String × ShowtimeData)) (k : String) (hk : rowKey r = some k) :
    dedupeAux (r :: rest) acc =
      dedupeAux rest (if acc.any (fun kv => kv.1 == k) then acc else acc ++ [(k, r)]) := by
  conv_lhs => rw [dedupeAux]
  rw [hk]

theorem dedupeAux_cons_none (r : ShowtimeData) (rest : List ShowtimeData)
    (acc : List (String × ShowtimeData)) (hk : rowKey r = none) :
    dedupeAux (r :: rest) acc = none := by
  unfold dedupeAux
  rw [hk]

theorem dedupeAux_find (rows : List ShowtimeData) :
    ∀ acc dd, dedupeAux rows acc = some dd → ∀ key,
      alFind? dd key =
        (alFind? acc key).or (rows.find? (fun r => rowKey r == some key)) := by
  induction rows with
  | nil =>
    intro acc dd h key
    cases h
    simp [option_or_none]
  | cons r rest ih =>
    intro acc dd h key
    cases hk : rowKey r with
    | none => rw [dedupeAux_cons_none r rest acc hk] at h; cases h
    | some k =>
      rw [dedupeAux_cons_some r rest acc k hk] at h
      have ih' := ih _ _ h key
      by_cases hkey : k = key
      · subst hkey
        have hstep : (r :: rest).find? (fun r => rowKey r == some k) = some r :=
          List.find?_cons_of_pos _ (by simp [hk])
        rw [hstep]
        cases hany : acc.any (fun kv => kv.1 == k) with
        | true =>
          rw [hany, if_pos rfl] at ih'
          have hsome : (alFind? acc k).isSome := by
            rw [← any_eq_isSome_alFind?, hany]
          obtain ⟨v, hv⟩ := Option.isSome_iff_exists.mp hsome
          rw [hv, option_some_or] at ih' ⊢
          exact ih'
        | false =>
          rw [hany, if_neg (by simp)] at ih'
          have hnone : alFind? acc k = none := by
            have h2 := any_eq_isSome_alFind? acc k
            rw [hany] at h2
            cases hfind : alFind? acc k
            · rfl
            · rw [hfind] at h2; cases h2
          rw [alFind?_append_single, hnone, Option.none_or,
            if_pos (by simp), option_some_or] at ih'
          rw [hnone, Option.none_or]
          exact ih'
      · have hstep : (r :: rest).find? (fun r => rowKey r == some key) =
            rest.find? (fun r => rowKey r == some key) :=
          List.find?_cons_of_neg _ (by simp [hk, hkey])
        rw [hstep]
        cases hany : acc.any (fun kv => kv.1 == k) with
        | true =>
          rw [hany, if_pos rfl] at ih'
          exact ih'
        | false =>
          rw [hany, if_neg (by simp)] at ih'
          rw [alFind?_append_single, if_neg (by simp [hkey]), option_or_none] at ih'
          exact ih'

/-- C7: deduplication binds every key to the earliest cleaned row with
that key; later rows with the same key are dropped. -/
theorem dedupe_first_occurrence_wins (rows : List ShowtimeData)
    (dd : List (String × ShowtimeData)) (h : dedupeRows rows = some dd) (key : String) :
    alFind? dd key = rows.find? (fun r => rowKey r == some key) := by
  have hmain := dedupeAux_find rows [] dd h key
  have hnil : alFind? ([] : List (String × ShowtimeData)) key = none := rfl
  rw [hnil, Option.none_or] at hmain
  exact hmain

/-- Witness for C7: two rows sharing a key but with different
auditoriums; the map binds the key to the first. -/
theorem dedupe_first_occurrence_wins_witness :
    alFind? [((("dune part 2|2025-03-15T20:00:00.000Z")), csvRowToShowtimeData sampleRow)]
        (("dune part 2|2025-03-15T20:00:00.000Z")) =
      [csvRowToShowtimeData sampleRow,
       csvRowToShowtimeData { sampleRow with auditorium := ("Auditorium 5") }].find?
        (fun r => rowKey r == some (("dune part 2|2025-03-15T20:00:00.000Z"))) :=
  dedupe_first_occurrence_wins _ _ (by decide) _

/-! ## Field-level diffing (C5, C6) -/

/-- The contribution of one field to `computeDiffs`: a diff entry when
the canonicalized values differ, nothing when they agree. -/
def diffEntry (ex inc : ShowtimeData) (f : String) : Option FieldDiff :=
  match canonField f (getField ex f), canonField f (getField inc f) with
  | some o, some n => if o ≠ n then some ⟨f, o, n⟩ else none
  | _, _ => none

/-- Whether a field differs after canonicalization. -/
def fieldDiffers (ex inc : ShowtimeData) (f : String) : Bool :=
  decide (canonField f (getField ex f) ≠ canonField f (getField inc f))

theorem computeDiffsAux_cons_somes (ex inc : ShowtimeData) (f : String)
    (fs : List String) (acc : List FieldDiff) (o n : String)
    (ho : canonField f (getField ex f) = some o)
    (hn : canonField f (getField inc f) = some n) :
    computeDiffsAux ex inc (f :: fs) acc =
      computeDiffsAux ex inc fs (if o ≠ n then acc ++ [⟨f, o, n⟩] else acc) := by
  conv_lhs => rw [computeDiffsAux]
  rw [ho, hn]

theorem computeDiffsAux_cons_noneL (ex inc : ShowtimeData) (f : String)
    (fs : List String) (acc : List FieldDiff)
    (ho : canonField f (getField ex f) = none) :
    computeDiffsAux ex inc (f :: fs) acc = none := by
  conv_lhs => rw [computeDiffsAux]
  rw [ho]

theorem computeDiffsAux_cons_noneR (ex inc : ShowtimeData) (f : String)
    (fs : List String) (acc : List FieldDiff)
    (hn : canonField f (getField inc f) = none) :
    computeDiffsAux ex inc (f :: fs) acc = none := by
  conv_lhs => rw [computeDiffsAux]
  rw [hn]
  cases canonField f (getField ex f) <;> rfl

theorem computeDiffsAux_spec (ex inc : ShowtimeData) (fs : List String) :
    ∀ acc ds, computeDiffsAux ex inc fs acc = some ds →
      (∀ f ∈ fs, (canonField f (getField ex f)).isSome ∧
        (canonField f (getField inc f)).isSome) ∧
      ds = acc ++ fs.filterMap (diffEntry ex inc) := by
  induction fs with
  | nil =>
    intro acc ds h
    cases h
    exact ⟨by simp, by simp⟩
  | cons f fs ih =>
    intro acc ds h
    cases ho : canonField f (getField ex f) with
    | none => rw [computeDiffsAux_cons_noneL ex inc f fs acc ho] at h; cases h
    | some o =>
      cases hn : canonField f (getField inc f) with
      | none => rw [computeDiffsAux_cons_noneR ex inc f fs acc hn] at h; cases h
      | some n =>
        rw [computeDiffsAux_cons_somes ex inc f fs acc o n ho hn] at h
        obtain ⟨hall, hds⟩ := ih _ _ h
        refine ⟨?_, ?_⟩
        · intro g hg
          rcases List.mem_cons.mp hg with rfl | hg'
          · exact ⟨by rw [ho]; rfl, by rw [hn]; rfl⟩
          · exact hall g hg'
        · subst hds
          by_cases hon : o ≠ n <;>
            simp [hon, List.filterMap_cons, diffEntry, ho, hn]

theorem computeDiffsAux_total (ex inc : ShowtimeData) (fs : List String)
    (hall : ∀ f ∈ fs, (canonField f (getField ex f)).isSome ∧
      (canonField f (getField inc f)).isSome) :
    ∀ acc, ∃ ds, computeDiffsAux ex inc fs acc = some ds := by
  induction fs with
  | nil => intro acc; exact ⟨acc, rfl⟩
  | cons f fs ih =>
    intro acc
    obtain ⟨⟨o, ho⟩, ⟨n, hn⟩⟩ :
        (∃ o, canonField f (getField ex f) = some o) ∧
        (∃ n, canonField f (getField inc f) = some n) := by
      have := hall f (List.mem_cons_self f fs)
      exact ⟨Option.isSome_iff_exists.mp this.1, Option.isSome_iff_exists.mp this.2⟩
    rw [computeDiffsAux_cons_somes ex inc f fs acc o n ho hn]
    exact ih (fun g hg => hall g (List.mem_cons_of_mem f hg)) _

/-- Every field of `diffFields` has a canonical value on a record whose
date fields parse. -/
theorem canonField_isSome_on_diffFields (x : ShowtimeData)
    (he : (parseJsDate x.endTime).isSome) (hl : (parseJsDate x.lastUpdated).isSome) :
    ∀ f ∈ diffFields, (canonField f (getField x f)).isSome := by
  intro f hf
  fin_cases hf <;>
    simp [canonField, getField, he, hl]

/-- C6: diffing a record against itself yields the empty diff list
(the record's date fields parsing, per the data-model invariant that
timestamp fields hold values convertible to an instant). -/
theorem computeDiffs_self_empty (x : ShowtimeData)
    (he : (parseJsDate x.endTime).isSome) (hl : (parseJsDate x.lastUpdated).isSome) :
    computeDiffs x x = some [] := by
  have hone := canonField_isSome_on_diffFields x he hl
  obtain ⟨ds, hds⟩ := computeDiffsAux_total x x diffFields
    (fun f hf => ⟨hone f hf, hone f hf⟩) []
  obtain ⟨_, hds2⟩ := computeDiffsAux_spec x x diffFields [] ds hds
  have hnil : diffFields.filterMap (diffEntry x x) = [] := by
    rw [List.filterMap_eq_nil_iff]
    intro f hf
    obtain ⟨v, hv⟩ := Option.isSome_iff_exists.mp (hone f hf)
    simp [diffEntry, hv]
  rw [computeDiffs, hds, hds2, hnil, List.append_nil]

/-- Witness for C6 at a concrete record. -/
theorem computeDiffs_self_empty_witness :
    computeDiffs (csvRowToShowtimeData sampleRow) (csvRowToShowtimeData sampleRow) = some [] :=
  computeDiffs_self_empty (csvRowToShowtimeData sampleRow) (by decide) (by decide)

theorem map_field_filterMap (ex inc : ShowtimeData) (fs : List String)
    (hall : ∀ f ∈ fs, (canonField f (getField ex f)).isSome ∧
      (canonField f (getField inc f)).isSome) :
    (fs.filterMap (diffEntry ex inc)).map FieldDiff.field =
      fs.filter (fieldDiffers ex inc) := by
  induction fs with
  | nil => rfl
  | cons f fs ih =>
    obtain ⟨⟨o, ho⟩, ⟨n, hn⟩⟩ :
        (∃ o, canonField f (getField ex f) = some o) ∧
        (∃ n, canonField f (getField inc f) = some n) := by
      have := hall f (List.mem_cons_self f fs)
      exact ⟨Option.isSome_iff_exists.mp this.1, Option.isSome_iff_exists.mp this.2⟩
    have ih' := ih (fun g hg => hall g (List.mem_cons_of_mem f hg))
    by_cases hon : o = n <;>
      simp [List.filterMap_cons, List.filter_cons, diffEntry, fieldDiffers, ho, hn, hon, ih']

/-- C5: for any pair of records a successful diff reports exactly the
differing fields, in the fixed `diffFields` order (dates compared as
canonical instants via `canonField`), and never a `startTime` entry. -/
theorem computeDiffs_fixed_field_order (ex inc : ShowtimeData) (ds : List FieldDiff)
    (h : computeDiffs ex inc = some ds) :
    ds.map FieldDiff.field = diffFields.filter (fieldDiffers ex inc) ∧
    ("startTime") ∉ ds.map FieldDiff.field ∧
    ∀ d ∈ ds, canonField d.field (getField ex d.field) = some d.oldValue ∧
      canonField d.field (getField inc d.field) = some d.newValue ∧
      d.oldValue ≠ d.newValue := by
  obtain ⟨hall, hds⟩ := computeDiffsAux_spec ex inc diffFields [] ds h
  rw [List.nil_append] at hds
  subst hds
  refine ⟨map_field_filterMap ex inc diffFields hall, ?_, ?_⟩
  · intro hmem
    rw [map_field_filterMap ex inc diffFields hall] at hmem
    have hin := List.mem_of_mem_filter hmem
    simp [diffFields] at hin
  · intro d hd
    obtain ⟨f, hf, hgf⟩ := List.mem_filterMap.mp hd
    obtain ⟨⟨o, ho⟩, ⟨n, hn⟩⟩ :
        (∃ o, canonField f (getField ex f) = some o) ∧
        (∃ n, canonField f (getField inc f) = some n) := by
      have := hall f hf
      exact ⟨Option.isSome_iff_exists.mp this.1, Option.isSome_iff_exists.mp this.2⟩
    rw [diffEntry, ho, hn] at hgf
    have h3 : (if o ≠ n then some (⟨f, o, n⟩ : FieldDiff) else none) = some d := hgf
    by_cases hon : o ≠ n
    · rw [if_pos hon] at h3
      have hgf2 : d = ⟨f, o, n⟩ := (Option.some_inj.mp h3).symm
      subst hgf2
      exact ⟨ho, hn, hon⟩
    · rw [if_neg hon] at h3
      cases h3

/-- Witness for C5 on a concrete matched pair differing in the raw
movie title. -/
theorem computeDiffs_fixed_field_order_witness :
    ([⟨("movieTitle"), ("Dune: Part Two"), ("DUNE PART 2")⟩] : List FieldDiff).map
        FieldDiff.field =
      diffFields.filter (fieldDiffers (existingToShowtimeData sampleExisting)
        (csvRowToShowtimeData sampleRow)) ∧
    ("startTime") ∉ ([⟨("movieTitle"), ("Dune: Part Two"), ("DUNE PART 2")⟩] :
        List FieldDiff).map FieldDiff.field ∧
    ∀ d ∈ ([⟨("movieTitle"), ("Dune: Part Two"), ("DUNE PART 2")⟩] : List FieldDiff),
      canonField d.field (getField (existingToShowtimeData sampleExisting) d.field) =
        some d.oldValue ∧
      canonField d.field (getField (csvRowToShowtimeData sampleRow) d.field) =
        some d.newValue ∧
      d.oldValue ≠ d.newValue :=
  computeDiffs_fixed_field_order (existingToShowtimeData sampleExisting)
    (csvRowToShowtimeData sampleRow) _ (by decide)

/-! ## Normalization: character-level lemmas -/

theorem mem_of_getLast?_some {l : List α} {a : α} (h : l.getLast? = some a) : a ∈ l := by
  obtain ⟨hne, ha⟩ := List.mem_getLast?_eq_getLast (show a ∈ l.getLast? by rw [h]; rfl)
  rw [ha]
  exact List.getLast_mem hne

theorem map_id_of {l : List α} {f : α → α} (h : ∀ a ∈ l, f a = a) : l.map f = l := by
  induction l with
  | nil => rfl
  | cons a l ih =>
    rw [List.map_cons, h a (List.mem_cons_self a l),
      ih (fun b hb => h b (List.mem_cons_of_mem a hb))]

theorem char_eq_of_toNat {c d : Char} (h : c.toNat = d.toNat) : c = d :=
  Char.ext (UInt32.toNat.inj h)

theorem ofNat_toNat_add32 (n : Nat) (h1 : 65 ≤ n) (h2 : n ≤ 90) :
    (Char.ofNat (n + 32)).toNat = n + 32 := by
  interval_cases n <;> decide

theorem toLower_toNat_of_upper (c : Char) (h : isAsciiUpper c = true) :
    (Char.toLower c).toNat = c.toNat + 32 := by
  have h' : 65 ≤ c.toNat ∧ c.toNat ≤ 90 := by simpa [isAsciiUpper] using h
  unfold Char.toLower
  rw [if_pos ⟨h'.1, h'.2⟩]
  exact ofNat_toNat_add32 c.toNat h'.1 h'.2

theorem toLower_eq_self (c : Char) (h : isAsciiUpper c = false) : Char.toLower c = c := by
  have h' : ¬(65 ≤ c.toNat ∧ c.toNat ≤ 90) := by simpa [isAsciiUpper] using h
  unfold Char.toLower
  rw [if_neg (by exact fun hc => h' ⟨hc.1, hc.2⟩)]

theorem isAsciiUpper_toLower (c : Char) : isAsciiUpper (Char.toLower c) = false := by
  cases h : isAsciiUpper c with
  | true =>
    simp only [isAsciiUpper, toLower_toNat_of_upper c h, decide_eq_false_iff_not]
    have h' : 65 ≤ c.toNat ∧ c.toNat ≤ 90 := by simpa [isAsciiUpper] using h
    omega
  | false => rw [toLower_eq_self c h]; exact h

theorem lw_toLower_of_upper (c : Char) (h : isAsciiUpper c = true) :
    isLowerWordChar (Char.toLower c) = true := by
  have h' : 65 ≤ c.toNat ∧ c.toNat ≤ 90 := by simpa [isAsciiUpper] using h
  simp only [isLowerWordChar, jsIsWordChar, isAsciiUpper, toLower_toNat_of_upper c h,
    Bool.and_eq_true, Bool.or_eq_true, decide_eq_true_eq, Bool.not_eq_true',
    decide_eq_false_iff_not]
  omega

theorem lw_not_ws (c : Char) (h : isLowerWordChar c = true) : jsIsWhitespace c = false := by
  simp only [isLowerWordChar, jsIsWordChar, isAsciiUpper, Bool.and_eq_true, Bool.or_eq_true,
    decide_eq_true_eq, Bool.not_eq_true', decide_eq_false_iff_not] at h
  simp only [jsIsWhitespace, Bool.or_eq_false_iff, decide_eq_false_iff_not]
  omega

theorem lw_ne_space (c : Char) (h : isLowerWordChar c = true) : c ≠ ' ' := by
  intro hc
  rw [hc] at h
  exact absurd h (by decide)

theorem punctToSpace_out (c : Char) (h : isAsciiUpper c = false) :
    isLowerWordChar (punctToSpace c) = true ∨
    jsIsWhitespace (punctToSpace c) = true := by
  unfold punctToSpace
  cases hw : (jsIsWordChar c || jsIsWhitespace c) with
  | false => right; rw [if_neg (by simp [hw])]; decide
  | true =>
    rw [if_pos (by simp [hw])]
    rcases Bool.or_eq_true_iff.mp hw with hword | hws
    · left
      simp [isLowerWordChar, hword, h]
    · right; exact hws

theorem punctToSpace_id (c : Char) (h : isLowerWordChar c = true ∨ c = ' ') :
    punctToSpace c = c := by
  unfold punctToSpace
  rcases h with h | rfl
  · rw [if_pos]
    simp only [isLowerWordChar, Bool.and_eq_true] at h
    simp [h.1]
  · rw [if_pos (by decide)]

theorem jsToLowerChars_not_upper (c : Char) :
    ∀ d ∈ jsToLowerChars c, isAsciiUpper d = false := by
  intro d hd
  unfold jsToLowerChars at hd
  by_cases hu : isAsciiUpper c = true
  · rw [if_pos hu] at hd
    have hds : d = Char.toLower c := by simpa using hd
    rw [hds]
    exact isAsciiUpper_toLower c
  · rw [if_neg hu] at hd
    by_cases hk : c.toNat = 8490
    · rw [if_pos hk] at hd
      have hds : d = 'k' := by simpa using hd
      rw [hds]; decide
    · rw [if_neg hk] at hd
      by_cases hi : c.toNat = 304
      · rw [if_pos hi] at hd
        rcases (by simpa using hd : d = 'i' ∨ d = Char.ofNat 775) with hds | hds <;>
          rw [hds] <;> decide
      · rw [if_neg hi] at hd
        have hds : d = c := by simpa using hd
        rw [hds]
        simpa using hu

theorem jsToLowerChars_id (c : Char) (h : isLowerWordChar c = true ∨ c = ' ') :
    jsToLowerChars c = [c] := by
  have hb : c.toNat ≤ 122 ∧ isAsciiUpper c = false := by
    rcases h with h | rfl
    · simp only [isLowerWordChar, jsIsWordChar, isAsciiUpper, Bool.and_eq_true,
        Bool.or_eq_true, decide_eq_true_eq, Bool.not_eq_true',
        decide_eq_false_iff_not] at h
      refine ⟨by omega, by simp only [isAsciiUpper, decide_eq_false_iff_not]; omega⟩
    · exact ⟨by decide, by decide⟩
  unfold jsToLowerChars
  rw [if_neg (by simp [hb.2]), if_neg (by omega), if_neg (by omega)]

theorem upper_is_word (c : Char) (h : isAsciiUpper c = true) :
    jsIsWordChar c = true := by
  simp only [isAsciiUpper, decide_eq_true_eq] at h
  simp only [jsIsWordChar, Bool.or_eq_true, decide_eq_true_eq]
  omega

theorem jsToLowerChars_eq_self_of_no_word (c : Char) (h1 : jsIsWordChar c = false)
    (h2 : c.toNat ≠ 8490) (h3 : c.toNat ≠ 304) : jsToLowerChars c = [c] := by
  have hu : isAsciiUpper c = false := by
    cases hup : isAsciiUpper c with
    | false => rfl
    | true => rw [upper_is_word c hup] at h1; cases h1
  unfold jsToLowerChars
  rw [if_neg (by simp [hu]), if_neg h2, if_neg h3]

theorem flatten_map_id {l : List α} {f : α → List α} (h : ∀ a ∈ l, f a = [a]) :
    (l.map f).flatten = l := by
  induction l with
  | nil => rfl
  | cons a rest ih =>
    rw [List.map_cons, List.flatten_cons, h a (List.mem_cons_self a rest),
      ih (fun b hb => h b (List.mem_cons_of_mem a hb))]
    rfl

/-! ## Normalization: whitespace collapsing -/

/-- No two adjacent whitespace characters. -/
def noWsPair (a b : Char) : Prop :=
  ¬(jsIsWhitespace a = true ∧ jsIsWhitespace b = true)

theorem collapseWs_mem (l : List Char) :
    ∀ c ∈ collapseWs l, (c ∈ l ∧ jsIsWhitespace c = false) ∨ c = ' ' := by
  induction l with
  | nil => intro c hc; cases hc
  | cons a rest ih =>
    cases rest with
    | nil =>
      intro c hc
      simp only [collapseWs] at hc
      cases hw : jsIsWhitespace a with
      | true => rw [if_pos hw] at hc; right; simpa using hc
      | false =>
        rw [if_neg (by simp [hw])] at hc
        left
        have hca : c = a := by simpa using hc
        rw [hca]
        exact ⟨List.mem_singleton.mpr rfl, hw⟩
    | cons d rest2 =>
      intro c hc
      simp only [collapseWs] at hc
      cases hw : (jsIsWhitespace a && jsIsWhitespace d) with
      | true =>
        rw [if_pos hw] at hc
        rcases ih c hc with ⟨hmem, hws⟩ | hsp
        · exact Or.inl ⟨List.mem_cons_of_mem a hmem, hws⟩
        · exact Or.inr hsp
      | false =>
        rw [if_neg (by simp [hw])] at hc
        rcases List.mem_cons.mp hc with hhead | htail
        · cases hwa : jsIsWhitespace a with
          | true => rw [hwa] at hhead; right; simpa using hhead
          | false =>
            rw [hwa] at hhead
            left
            simp only [if_neg Bool.false_ne_true] at hhead
            rw [hhead]
            exact ⟨List.mem_cons_self a _, hwa⟩
        · rcases ih c htail with ⟨hmem, hws⟩ | hsp
          · exact Or.inl ⟨List.mem_cons_of_mem a hmem, hws⟩
          · exact Or.inr hsp

theorem collapseWs_head (a : Char) (rest : List Char) :
    (collapseWs (a :: rest)).head? = some (if jsIsWhitespace a then ' ' else a) := by
  induction rest generalizing a with
  | nil =>
    simp only [collapseWs]
    cases hw : jsIsWhitespace a <;> simp [hw]
  | cons d rest2 ih =>
    simp only [collapseWs]
    cases hw : (jsIsWhitespace a && jsIsWhitespace d) with
    | true =>
      rw [if_pos rfl, ih d]
      obtain ⟨hwa, hwd⟩ := Bool.and_eq_true_iff.mp hw
      rw [hwa, hwd]
      simp
    | false => simp

theorem collapseWs_chain (l : List Char) : List.Chain' noWsPair (collapseWs l) := by
  induction l with
  | nil => simp [collapseWs]
  | cons a rest ih =>
    cases rest with
    | nil =>
      simp only [collapseWs]
      cases hw : jsIsWhitespace a <;> simp [List.chain'_singleton]
    | cons d rest2 =>
      simp only [collapseWs]
      cases hw : (jsIsWhitespace a && jsIsWhitespace d) with
      | true => rw [if_pos rfl]; exact ih
      | false =>
        rw [if_neg (by simp)]
        rw [List.chain'_cons']
        refine ⟨?_, ih⟩
        intro y hy
        rw [collapseWs_head d rest2] at hy
        have hy' : y = if jsIsWhitespace d then ' ' else d := by
          have := hy
          simp only [Option.mem_def, Option.some_inj] at this
          exact this.symm
        rcases Bool.and_eq_false_iff.mp hw with hwa | hwd
        · intro ⟨h1, _⟩
          rw [if_neg (by simp [hwa])] at h1
          rw [hwa] at h1
          cases h1
        · intro ⟨_, h2⟩
          rw [hy'] at h2
          rw [if_neg (by simp [hwd]), hwd] at h2
          cases h2

theorem collapseWs_ws_eq_space (l : List Char) :
    ∀ c ∈ collapseWs l, jsIsWhitespace c = true → c = ' ' := by
  intro c hc hw
  rcases collapseWs_mem l c hc with ⟨_, hws⟩ | hsp
  · rw [hw] at hws; cases hws
  · exact hsp

theorem collapseWs_id (l : List Char) (h1 : List.Chain' noWsPair l)
    (h2 : ∀ c ∈ l, jsIsWhitespace c = true → c = ' ') : collapseWs l = l := by
  induction l with
  | nil => rfl
  | cons a rest ih =>
    cases rest with
    | nil =>
      simp only [collapseWs]
      cases hw : jsIsWhitespace a with
      | true => rw [if_pos rfl, h2 a (List.mem_singleton.mpr rfl) hw]
      | false => rw [if_neg (by simp)]
    | cons d rest2 =>
      simp only [collapseWs]
      have hpair : noWsPair a d := (List.chain'_cons.mp h1).1
      cases hw : (jsIsWhitespace a && jsIsWhitespace d) with
      | true =>
        exfalso
        obtain ⟨hwa, hwd⟩ := Bool.and_eq_true_iff.mp hw
        exact hpair ⟨hwa, hwd⟩
      | false =>
        rw [if_neg (by simp)]
        have htail : collapseWs (d :: rest2) = d :: rest2 :=
          ih (List.chain'_cons.mp h1).2
            (fun c hc hcw => h2 c (List.mem_cons_of_mem a hc) hcw)
        rw [htail]
        cases hwa : jsIsWhitespace a with
        | true => rw [if_pos rfl, h2 a (List.mem_cons_self a _) hwa]
        | false => rw [if_neg (by simp)]

theorem collapseWs_all_ws (l : List Char) (h : ∀ c ∈ l, jsIsWhitespace c = true) :
    collapseWs l = [] ∨ collapseWs l = [' '] := by
  induction l with
  | nil => left; rfl
  | cons a rest ih =>
    cases rest with
    | nil =>
      right
      simp only [collapseWs]
      rw [if_pos (h a (List.mem_singleton.mpr rfl))]
    | cons d rest2 =>
      simp only [collapseWs]
      rw [if_pos (by
        rw [Bool.and_eq_true_iff]
        exact ⟨h a (List.mem_cons_self a _),
          h d (List.mem_cons_of_mem a (List.mem_cons_self d _))⟩)]
      exact ih (fun c hc => h c (List.mem_cons_of_mem a hc))

/-! ## Normalization: trimming -/

theorem dropWhile_head_not (p : α → Bool) (l : List α) :
    ∀ c, (l.dropWhile p).head? = some c → p c = false := by
  induction l with
  | nil => intro c hc; cases hc
  | cons a rest ih =>
    intro c hc
    rw [List.dropWhile_cons] at hc
    cases hpa : p a with
    | true =>
      rw [hpa, if_pos rfl] at hc
      exact ih c hc
    | false =>
      rw [hpa, if_neg (by simp)] at hc
      have hca : a = c := by simpa using hc
      rw [← hca]
      exact hpa

theorem dropWhile_eq_self_of_head (p : α → Bool) (l : List α)
    (h : ∀ c, l.head? = some c → p c = false) : l.dropWhile p = l := by
  cases l with
  | nil => rfl
  | cons a rest => rw [List.dropWhile_cons, h a rfl, if_neg (by simp)]

theorem mem_jsTrimChars (l : List Char) : ∀ c ∈ jsTrimChars l, c ∈ l := by
  intro c hc
  unfold jsTrimChars at hc
  rw [List.mem_reverse] at hc
  have h1 := (List.dropWhile_sublist jsIsWhitespace).subset hc
  rw [List.mem_reverse] at h1
  exact (List.dropWhile_sublist jsIsWhitespace).subset h1

theorem jsTrimChars_getLast (l : List Char) :
    ∀ c, (jsTrimChars l).getLast? = some c → jsIsWhitespace c = false := by
  intro c hc
  unfold jsTrimChars at hc
  rw [List.getLast?_reverse] at hc
  exact dropWhile_head_not _ _ c hc

theorem jsTrimChars_head (l : List Char) :
    ∀ c, (jsTrimChars l).head? = some c → jsIsWhitespace c = false := by
  intro c hc
  unfold jsTrimChars at hc
  rw [List.head?_reverse] at hc
  obtain ⟨a, ha⟩ :=
    List.dropWhile_suffix (l := (List.dropWhile jsIsWhitespace l).reverse) jsIsWhitespace
  have h2 : ((List.dropWhile jsIsWhitespace l).reverse).getLast? = some c := by
    rw [← ha, List.getLast?_append, hc, option_some_or]
  rw [List.getLast?_reverse] at h2
  exact dropWhile_head_not _ _ c h2

theorem chain'_dropWhile {R : α → α → Prop} (p : α → Bool) (l : List α)
    (h : List.Chain' R l) : List.Chain' R (l.dropWhile p) := by
  induction l with
  | nil => exact h
  | cons a rest ih =>
    rw [List.dropWhile_cons]
    cases hpa : p a with
    | true =>
      rw [if_pos rfl]
      exact ih (by simpa using h.tail)
    | false =>
      rw [if_neg (by simp)]
      exact h

theorem noWsPair_symm {a b : Char} (h : noWsPair a b) : noWsPair b a :=
  fun hab => h ⟨hab.2, hab.1⟩

theorem chain'_reverse_noWsPair (l : List Char) (h : List.Chain' noWsPair l) :
    List.Chain' noWsPair l.reverse := by
  rw [List.chain'_reverse]
  exact List.Chain'.imp (fun a b hr => noWsPair_symm hr) h

theorem jsTrimChars_chain (l : List Char) (h : List.Chain' noWsPair l) :
    List.Chain' noWsPair (jsTrimChars l) := by
  unfold jsTrimChars
  exact chain'_reverse_noWsPair _
    (chain'_dropWhile _ _ (chain'_reverse_noWsPair _ (chain'_dropWhile _ _ h)))

theorem jsTrimChars_id (l : List Char)
    (hh : ∀ c, l.head? = some c → jsIsWhitespace c = false)
    (hl : ∀ c, l.getLast? = some c → jsIsWhitespace c = false) : jsTrimChars l = l := by
  unfold jsTrimChars
  rw [dropWhile_eq_self_of_head _ _ hh,
    dropWhile_eq_self_of_head _ _ (fun c hc => hl c (by rwa [List.head?_reverse] at hc))]
  exact List.reverse_reverse l

/-! ## Normalization: splitting on spaces -/

theorem splitOnSpace_ne_nil (l : List Char) : splitOnSpace l ≠ [] := by
  cases l with
  | nil => simp [splitOnSpace]
  | cons c rest =>
    simp only [splitOnSpace]
    by_cases hc : c = ' '
    · rw [if_pos hc]; simp
    · rw [if_neg hc]
      cases splitOnSpace rest <;> simp

theorem splitOnSpace_cons_space (rest : List Char) :
    splitOnSpace (' ' :: rest) = [] :: splitOnSpace rest := by
  simp [splitOnSpace]

theorem splitOnSpace_cons_char (c : Char) (rest : List Char) (hc : c ≠ ' ') :
    ∃ t ts, splitOnSpace rest = t :: ts ∧ splitOnSpace (c :: rest) = (c :: t) :: ts := by
  cases hsr : splitOnSpace rest with
  | nil => exact absurd hsr (splitOnSpace_ne_nil rest)
  | cons t ts =>
    refine ⟨t, ts, rfl, ?_⟩
    simp only [splitOnSpace, if_neg hc, hsr]

theorem mem_splitOnSpace_no_space (l : List Char) :
    ∀ t ∈ splitOnSpace l, ' ' ∉ t := by
  induction l with
  | nil =>
    intro t ht hsp
    have ht' : t = [] := by simpa [splitOnSpace] using ht
    rw [ht'] at hsp
    cases hsp
  | cons c rest ih =>
    intro t ht
    by_cases hc : c = ' '
    · subst hc
      rw [splitOnSpace_cons_space] at ht
      rcases List.mem_cons.mp ht with rfl | ht2
      · simp
      · exact ih t ht2
    · obtain ⟨t0, ts, hsr, hsc⟩ := splitOnSpace_cons_char c rest hc
      rw [hsc] at ht
      rcases List.mem_cons.mp ht with rfl | ht2
      · intro hsp
        rcases List.mem_cons.mp hsp with h1 | h2
        · exact hc h1.symm
        · exact ih t0 (by rw [hsr]; exact List.mem_cons_self t0 ts) h2
      · exact ih t (by rw [hsr]; exact List.mem_cons_of_mem t0 ht2)

theorem mem_splitOnSpace_sub (l : List Char) :
    ∀ t ∈ splitOnSpace l, ∀ c ∈ t, c ∈ l := by
  induction l with
  | nil =>
    intro t ht c hcm
    have ht' : t = [] := by simpa [splitOnSpace] using ht
    rw [ht'] at hcm
    cases hcm
  | cons a rest ih =>
    intro t ht c hcm
    by_cases ha : a = ' '
    · subst ha
      rw [splitOnSpace_cons_space] at ht
      rcases List.mem_cons.mp ht with rfl | ht2
      · cases hcm
      · exact List.mem_cons_of_mem _ (ih t ht2 c hcm)
    · obtain ⟨t0, ts, hsr, hsc⟩ := splitOnSpace_cons_char a rest ha
      rw [hsc] at ht
      rcases List.mem_cons.mp ht with rfl | ht2
      · rcases List.mem_cons.mp hcm with rfl | h2
        · exact List.mem_cons_self _ _
        · exact List.mem_cons_of_mem _
            (ih t0 (by rw [hsr]; exact List.mem_cons_self t0 ts) c h2)
      · exact List.mem_cons_of_mem _
          (ih t (by rw [hsr]; exact List.mem_cons_of_mem t0 ht2) c hcm)

theorem splitOnSpace_no_space_eq (t : List Char) (h : ' ' ∉ t) : splitOnSpace t = [t] := by
  induction t with
  | nil => rfl
  | cons c t' ih =>
    have hc : c ≠ ' ' := fun hcc => h (by rw [hcc]; exact List.mem_cons_self _ _)
    obtain ⟨t0, ts, hsr, hsc⟩ := splitOnSpace_cons_char c t' hc
    rw [ih (fun hsp => h (List.mem_cons_of_mem c hsp))] at hsr
    cases hsr
    exact hsc

theorem splitOnSpace_append_space (t l : List Char) (h : ' ' ∉ t) :
    splitOnSpace (t ++ ' ' :: l) = t :: splitOnSpace l := by
  induction t with
  | nil => simp [splitOnSpace_cons_space]
  | cons c t' ih =>
    have hc : c ≠ ' ' := fun hcc => h (by rw [hcc]; exact List.mem_cons_self _ _)
    have ih' := ih (fun hsp => h (List.mem_cons_of_mem c hsp))
    obtain ⟨t0, ts, hsr, hsc⟩ := splitOnSpace_cons_char c (t' ++ ' ' :: l) hc
    rw [ih'] at hsr
    cases hsr
    rw [List.cons_append, hsc]

/-! ## Normalization: joining with spaces -/

theorem joinSpace_cons_cons (t t2 : List Char) (ts : List (List Char)) :
    joinSpace (t :: t2 :: ts) = t ++ ' ' :: joinSpace (t2 :: ts) := rfl

theorem splitOnSpace_joinSpace (ts : List (List Char)) (hne : ts ≠ [])
    (h : ∀ t ∈ ts, ' ' ∉ t) : splitOnSpace (joinSpace ts) = ts := by
  induction ts with
  | nil => exact absurd rfl hne
  | cons t ts' ih =>
    cases ts' with
    | nil => exact splitOnSpace_no_space_eq t (h t (List.mem_singleton.mpr rfl))
    | cons t2 ts2 =>
      rw [joinSpace_cons_cons, splitOnSpace_append_space t _ (h t (List.mem_cons_self _ _)),
        ih (by simp) (fun u hu => h u (List.mem_cons_of_mem t hu))]

theorem mem_joinSpace (ts : List (List Char)) :
    ∀ c ∈ joinSpace ts, (∃ t ∈ ts, c ∈ t) ∨ c = ' ' := by
  induction ts with
  | nil => intro c hc; cases hc
  | cons t ts' ih =>
    cases ts' with
    | nil => intro c hc; exact Or.inl ⟨t, List.mem_singleton.mpr rfl, hc⟩
    | cons t2 ts2 =>
      intro c hc
      rw [joinSpace_cons_cons] at hc
      rcases List.mem_append.mp hc with h1 | h2
      · exact Or.inl ⟨t, List.mem_cons_self _ _, h1⟩
      · rcases List.mem_cons.mp h2 with rfl | h3
        · exact Or.inr rfl
        · rcases ih c h3 with ⟨u, hu, hcu⟩ | hsp
          · exact Or.inl ⟨u, List.mem_cons_of_mem t hu, hcu⟩
          · exact Or.inr hsp

theorem joinSpace_head (t : List Char) (ts : List (List Char)) (h : t ≠ []) :
    (joinSpace (t :: ts)).head? = t.head? := by
  cases ts with
  | nil => rfl
  | cons t2 ts2 =>
    rw [joinSpace_cons_cons]
    exact List.head?_append_of_ne_nil t h

theorem joinSpace_ne_nil_of (t : List Char) (ts : List (List Char)) (h : t ≠ []) :
    joinSpace (t :: ts) ≠ [] := by
  cases ts with
  | nil => exact h
  | cons t2 ts2 => rw [joinSpace_cons_cons]; simp

theorem joinSpace_getLast (ts : List (List Char)) (hne : ∀ t ∈ ts, t ≠ []) :
    ∀ c, (joinSpace ts).getLast? = some c → ∃ t ∈ ts, t.getLast? = some c := by
  induction ts with
  | nil => intro c hc; cases hc
  | cons t ts' ih =>
    cases ts' with
    | nil => intro c hc; exact ⟨t, List.mem_singleton.mpr rfl, hc⟩
    | cons t2 ts2 =>
      intro c hc
      rw [joinSpace_cons_cons, List.getLast?_append] at hc
      have hjne : joinSpace (t2 :: ts2) ≠ [] :=
        joinSpace_ne_nil_of t2 ts2 (hne t2 (List.mem_cons_of_mem t (List.mem_cons_self _ _)))
      have hg : (' ' :: joinSpace (t2 :: ts2)).getLast? = (joinSpace (t2 :: ts2)).getLast? := by
        cases hjs : joinSpace (t2 :: ts2) with
        | nil => exact absurd hjs hjne
        | cons x xs => rw [List.getLast?_cons_cons]
      rw [hg] at hc
      obtain ⟨v, hv⟩ := Option.isSome_iff_exists.mp (List.getLast?_isSome.mpr hjne)
      rw [hv, option_some_or] at hc
      have hvc : v = c := by simpa using hc
      obtain ⟨u, hu, hcu⟩ :=
        ih (fun u hu => hne u (List.mem_cons_of_mem t hu)) c (by rw [hv, hvc])
      exact ⟨u, List.mem_cons_of_mem t hu, hcu⟩

/-- No two adjacent space characters: single spacing, the shape that
makes the `|`-separated key parse unambiguously. -/
def spacePair (a b : Char) : Prop :=
  ¬(a = ' ' ∧ b = ' ')

/-- Executable single-spacing check, used to evaluate `spacePair` chains
on the concrete replacement strings of the lookup table. -/
def singleSpaced : List Char → Bool
  | a :: b :: rest => (!(a == ' ' && b == ' ')) && singleSpaced (b :: rest)
  | _ => true

theorem chain'_of_singleSpaced (t : List Char) (h : singleSpaced t = true) :
    List.Chain' spacePair t := by
  induction t with
  | nil => simp
  | cons a rest ih =>
    cases rest with
    | nil => simp
    | cons b rest2 =>
      unfold singleSpaced at h
      rw [Bool.and_eq_true] at h
      rw [List.chain'_cons]
      refine ⟨?_, ih h.2⟩
      intro hpair
      have h1 := h.1
      rw [hpair.1, hpair.2] at h1
      exact absurd h1 (by decide)

theorem chain'_of_no_space (t : List Char) (h : ∀ c ∈ t, c ≠ ' ') :
    List.Chain' spacePair t := by
  induction t with
  | nil => simp
  | cons a rest ih =>
    rw [List.chain'_cons']
    refine ⟨?_, ih (fun c hc => h c (List.mem_cons_of_mem a hc))⟩
    intro y hy hpair
    exact h a (List.mem_cons_self a rest) hpair.1

theorem joinSpace_chain_space (ts : List (List Char)) (hne : ∀ t ∈ ts, t ≠ [])
    (hch : ∀ t ∈ ts, List.Chain' spacePair t)
    (hh : ∀ t ∈ ts, t.head? ≠ some ' ')
    (hl : ∀ t ∈ ts, t.getLast? ≠ some ' ') :
    List.Chain' spacePair (joinSpace ts) := by
  induction ts with
  | nil => simp [joinSpace]
  | cons t ts' ih =>
    cases ts' with
    | nil => exact hch t (List.mem_singleton.mpr rfl)
    | cons t2 ts2 =>
      rw [joinSpace_cons_cons, List.chain'_append]
      refine ⟨hch t (List.mem_cons_self _ _), ?_, ?_⟩
      · rw [List.chain'_cons']
        refine ⟨?_, ih (fun u hu => hne u (List.mem_cons_of_mem t hu))
          (fun u hu => hch u (List.mem_cons_of_mem t hu))
          (fun u hu => hh u (List.mem_cons_of_mem t hu))
          (fun u hu => hl u (List.mem_cons_of_mem t hu))⟩
        intro y hy hpair
        rw [joinSpace_head t2 ts2
          (hne t2 (List.mem_cons_of_mem t (List.mem_cons_self _ _)))] at hy
        have hy2 : t2.head? = some y := Option.mem_def.mp hy
        refine hh t2 (List.mem_cons_of_mem t (List.mem_cons_self _ _)) ?_
        rw [hy2, hpair.2]
      · intro x hx y hy hpair
        have hxl : t.getLast? = some x := Option.mem_def.mp hx
        refine hl t (List.mem_cons_self _ _) ?_
        rw [hxl, hpair.1]

/-! ## Normalization: tokens of a collapsed, trimmed string are non-empty -/

theorem splitOnSpace_tokens_ne_nil_fuel (n : Nat) : ∀ (l : List Char), l.length ≤ n →
    (∀ c, l.head? = some c → jsIsWhitespace c = false) →
    (∀ c, l.getLast? = some c → jsIsWhitespace c = false) →
    List.Chain' noWsPair l →
    (∀ c ∈ l, jsIsWhitespace c = true → c = ' ') →
    l ≠ [] → ∀ t ∈ splitOnSpace l, t ≠ [] := by
  induction n with
  | zero =>
    intro l hlen _ _ _ _ hne
    rw [List.length_eq_zero.mp (Nat.le_zero.mp hlen)] at hne
    exact absurd rfl hne
  | succ n ih =>
    intro l hlen hh hl2 hch hws hne t ht
    cases l with
    | nil => exact absurd rfl hne
    | cons c rest =>
      have hcw : jsIsWhitespace c = false := hh c rfl
      have hc : c ≠ ' ' := by
        intro hcc
        rw [hcc] at hcw
        exact absurd hcw (by decide)
      obtain ⟨t0, ts, hsr, hsc⟩ := splitOnSpace_cons_char c rest hc
      rw [hsc] at ht
      rcases List.mem_cons.mp ht with rfl | ht2
      · simp
      · cases rest with
        | nil =>
          have hsr' : ([[]] : List (List Char)) = t0 :: ts := by
            simpa [splitOnSpace] using hsr.symm
          cases hsr'
          cases ht2
        | cons d rest2 =>
          by_cases hd : d = ' '
          · subst hd
            rw [splitOnSpace_cons_space] at hsr
            cases hsr
            cases rest2 with
            | nil =>
              exfalso
              have hlast : ((c :: [' ']).getLast? : Option Char) = some ' ' := by simp
              exact absurd (hl2 ' ' hlast) (by decide)
            | cons e rest3 =>
              have hch2 := (List.chain'_cons.mp hch).2
              have hpair := (List.chain'_cons.mp hch2).1
              have hew : jsIsWhitespace e = false := by
                cases hwe : jsIsWhitespace e with
                | true => exact absurd (hpair ⟨by decide, hwe⟩) (fun x => x)
                | false => rfl
              refine ih (e :: rest3) ?_ ?_ ?_ ?_ ?_ (by simp) t ht2
              · have := hlen
                simp only [List.length_cons] at this ⊢
                omega
              · intro c' hc'
                have hce : c' = e := by simpa using hc'.symm
                rw [hce]
                exact hew
              · intro c' hc'
                apply hl2
                have heq : (c :: ' ' :: e :: rest3).getLast? = (e :: rest3).getLast? := by
                  rw [List.getLast?_cons_cons, List.getLast?_cons_cons]
                rw [heq, hc']
              · exact (List.chain'_cons.mp hch2).2
              · intro c' hc' hw'
                exact hws c'
                  (List.mem_cons_of_mem c (List.mem_cons_of_mem ' ' hc')) hw'
          · have hdw : jsIsWhitespace d = false := by
              cases hwd : jsIsWhitespace d with
              | true =>
                exact absurd (hws d (List.mem_cons_of_mem c (List.mem_cons_self _ _)) hwd) hd
              | false => rfl
            refine ih (d :: rest2) ?_ ?_ ?_ (List.chain'_cons.mp hch).2 ?_ (by simp) t ?_
            · have := hlen
              simp only [List.length_cons] at this ⊢
              omega
            · intro c' hc'
              have hcd : c' = d := by simpa using hc'.symm
              rw [hcd]
              exact hdw
            · intro c' hc'
              apply hl2
              rw [List.getLast?_cons_cons, hc']
            · intro c' hc' hw'
              exact hws c' (List.mem_cons_of_mem c hc') hw'
            · rw [hsr]
              exact List.mem_cons_of_mem t0 ht2

theorem splitOnSpace_tokens_ne_nil (l : List Char)
    (hh : ∀ c, l.head? = some c → jsIsWhitespace c = false)
    (hl2 : ∀ c, l.getLast? = some c → jsIsWhitespace c = false)
    (hch : List.Chain' noWsPair l)
    (hws : ∀ c ∈ l, jsIsWhitespace c = true → c = ' ')
    (hne : l ≠ []) : ∀ t ∈ splitOnSpace l, t ≠ [] :=
  splitOnSpace_tokens_ne_nil_fuel l.length l (Nat.le_refl _) hh hl2 hch hws hne

/-! ## Normalization: the number-word table -/

theorem wordToDigitLookup_mem (w d : String) (h : wordToDigitLookup w = some d) :
    ∃ kv, kv ∈ wordToDigit ++ objectPrototypeEntries ∧ kv.2 = d := by
  unfold wordToDigitLookup at h
  cases hfind : List.find? (fun kv => kv.1 == w) (wordToDigit ++ objectPrototypeEntries) with
  | none => rw [hfind] at h; cases h
  | some kv =>
    rw [hfind] at h
    exact ⟨kv, List.mem_of_find?_eq_some hfind, by simpa using h⟩

/-- None of the table's replacement strings is itself a key (digits,
brackets and spaces never occur in a property name of the table or of
`Object.prototype`), so a second lookup of any replacement misses. -/
theorem lookup_values_none : ∀ kv ∈ wordToDigit ++ objectPrototypeEntries,
    wordToDigitLookup kv.2 = none := by decide

/-- Shape facts about every replacement string of the table, checked by
evaluation: non-empty, free of `|`, single-spaced, and not starting or
ending with a space. -/
theorem lookup_values_shape : ∀ kv ∈ wordToDigit ++ objectPrototypeEntries,
    kv.2.data ≠ [] ∧ ('|') ∉ kv.2.data ∧ singleSpaced kv.2.data = true ∧
    kv.2.data.head? ≠ some ' ' ∧ kv.2.data.getLast? ≠ some ' ' := by decide

theorem mapToken_lookup_none (t : List Char) :
    wordToDigitLookup (String.mk (mapToken t)) = none := by
  unfold mapToken
  cases hl : wordToDigitLookup (String.mk t) with
  | none => exact hl
  | some d =>
    show wordToDigitLookup (String.mk d.data) = none
    obtain ⟨kv, hkv, hvd⟩ := wordToDigitLookup_mem _ d hl
    have hmk : String.mk d.data = kv.2 := by rw [← hvd]
    rw [hmk]
    exact lookup_values_none kv hkv

theorem mapToken_eq_self (t : List Char)
    (h : wordToDigitLookup (String.mk t) = none) : mapToken t = t := by
  unfold mapToken
  rw [h]

theorem mapToken_nil : mapToken [] = [] := by decide

theorem mapToken_cases (t : List Char) :
    mapToken t = t ∨
    ∃ kv, kv ∈ wordToDigit ++ objectPrototypeEntries ∧ mapToken t = kv.2.data := by
  unfold mapToken
  cases hl : wordToDigitLookup (String.mk t) with
  | none => exact Or.inl rfl
  | some d =>
    obtain ⟨kv, hkv, hvd⟩ := wordToDigitLookup_mem _ d hl
    exact Or.inr ⟨kv, hkv, by rw [hvd]⟩

theorem mapToken_ne_nil (t : List Char) (h : t ≠ []) : mapToken t ≠ [] := by
  rcases mapToken_cases t with heq | ⟨kv, hkv, heq⟩
  · rw [heq]; exact h
  · rw [heq]; exact (lookup_values_shape kv hkv).1

/-! ## Normalization: normal form of the output (C4) -/

theorem normalizeChars_tokens (l : List Char) :
    ∃ ts, normalizeChars l = joinSpace ts ∧ ts ≠ [] ∧
      (∀ t ∈ ts, (∀ c ∈ t, isLowerWordChar c = true) ∨
        ∃ kv, kv ∈ wordToDigit ++ objectPrototypeEntries ∧ t = kv.2.data) ∧
      (ts = [[]] ∨ ∀ t ∈ ts, t ≠ []) := by
  have hm : ∀ c ∈ ((l.map jsToLowerChars).flatten).map punctToSpace,
      isLowerWordChar c = true ∨ jsIsWhitespace c = true := by
    intro c hc
    obtain ⟨a, ha, rfl⟩ := List.mem_map.mp hc
    obtain ⟨s, hs, has⟩ := List.mem_flatten.mp ha
    obtain ⟨c₀, _, rfl⟩ := List.mem_map.mp hs
    exact punctToSpace_out a (jsToLowerChars_not_upper c₀ a has)
  have hB : ∀ c ∈ collapseWs (((l.map jsToLowerChars).flatten).map punctToSpace),
      isLowerWordChar c = true ∨ c = ' ' := by
    intro c hc
    rcases collapseWs_mem _ c hc with ⟨hmem, hws⟩ | hsp
    · rcases hm c hmem with h1 | h1
      · exact Or.inl h1
      · rw [h1] at hws; cases hws
    · exact Or.inr hsp
  have hC : ∀ c ∈ jsTrimChars (collapseWs (((l.map jsToLowerChars).flatten).map punctToSpace)),
      isLowerWordChar c = true ∨ c = ' ' :=
    fun c hc => hB c (mem_jsTrimChars _ c hc)
  have hCws : ∀ c ∈ jsTrimChars (collapseWs (((l.map jsToLowerChars).flatten).map punctToSpace)),
      jsIsWhitespace c = true → c = ' ' := by
    intro c hc hw
    rcases hC c hc with h1 | h1
    · rw [lw_not_ws c h1] at hw; cases hw
    · exact h1
  refine ⟨(splitOnSpace
      (jsTrimChars (collapseWs (((l.map jsToLowerChars).flatten).map punctToSpace)))).map mapToken,
    rfl, ?_, ?_, ?_⟩
  · intro hmap
    exact splitOnSpace_ne_nil _ (by simpa using hmap)
  · intro t ht
    obtain ⟨t0, ht0, rfl⟩ := List.mem_map.mp ht
    have hlwt : ∀ c' ∈ t0, isLowerWordChar c' = true := by
      intro c' hc'
      rcases hC c' (mem_splitOnSpace_sub _ t0 ht0 c' hc') with h1 | h1
      · exact h1
      · exfalso
        apply mem_splitOnSpace_no_space _ t0 ht0
        rw [← h1]
        exact hc'
    rcases mapToken_cases t0 with heq | ⟨kv, hkv, heq⟩
    · left
      rw [heq]
      exact hlwt
    · right
      exact ⟨kv, hkv, heq⟩
  · by_cases htr0 :
      jsTrimChars (collapseWs (((l.map jsToLowerChars).flatten).map punctToSpace)) = []
    · left
      rw [htr0]
      simp [splitOnSpace, mapToken_nil]
    · right
      intro t ht
      obtain ⟨t0, ht0, rfl⟩ := List.mem_map.mp ht
      exact mapToken_ne_nil t0
        (splitOnSpace_tokens_ne_nil _ (jsTrimChars_head _) (jsTrimChars_getLast _)
          (jsTrimChars_chain _ (collapseWs_chain _)) hCws htr0 t0 ht0)

/-- C3: the claimed idempotence of `normalizeTitle` fails in the
program.  At the title `__proto__` the lookup `wordToDigit[word]` finds
the inherited `Object.prototype` property, a truthy object that
`join(" ")` stringifies to `[object Object]`; normalizing that output
again yields `object object`.  The spec's normalization algorithm — a
fixed ten-entry number-word table — is clearly the intent, and the
unguarded property access the slip. -/
theorem proto_title_not_idempotent :
    normalizeTitle ("__proto__") = ("[object Object]") ∧
    normalizeTitle (normalizeTitle ("__proto__")) = ("object object") ∧
    normalizeTitle (normalizeTitle ("__proto__")) ≠ normalizeTitle ("__proto__") := by
  decide

/-- Counterexample to C4 as stated: `normalizeTitle "_"` contains an
underscore, which is neither a lowercase letter, a digit, nor a space
(`\w` matches the underscore, so it survives normalization). -/
theorem normalizeTitle_underscore_counterexample :
    ('_') ∈ (normalizeTitle ("_")).data ∧
      ¬((97 ≤ ('_').toNat ∧ ('_').toNat ≤ 122) ∨
        (48 ≤ ('_').toNat ∧ ('_').toNat ≤ 57) ∨ ('_') = ' ') := by
  decide

/-- C4 (amended): the key separator `|` never occurs in a normalized
title, and spaces in it are single and never at either end, so the
composite MatchKey parses unambiguously.  (A clean character-class
enumeration fails: `\w` keeps underscores, and the inherited-property
replacements of the word-to-digit pass inject brackets and uppercase
letters, but none of the replacement strings contains `|`, starts or
ends with a space, or holds a double space.) -/
theorem normalizeTitle_key_safety (t : String) :
    ('|') ∉ (normalizeTitle t).data ∧
    List.Chain' spacePair (normalizeTitle t).data ∧
    (normalizeTitle t).data.head? ≠ some ' ' ∧
    (normalizeTitle t).data.getLast? ≠ some ' ' := by
  obtain ⟨ts, hts, hne, htok, hshape⟩ := normalizeChars_tokens t.data
  have hdata : (normalizeTitle t).data = normalizeChars t.data := rfl
  rw [hdata, hts]
  rcases hshape with rfl | hts'
  · exact ⟨by simp [joinSpace], by simp [joinSpace], by simp [joinSpace],
      by simp [joinSpace]⟩
  · have hvshape := lookup_values_shape
    have htchain : ∀ u ∈ ts, List.Chain' spacePair u := by
      intro u hu
      rcases htok u hu with hlw | ⟨kv, hkv, rfl⟩
      · exact chain'_of_no_space u (fun c hc => lw_ne_space c (hlw c hc))
      · exact chain'_of_singleSpaced _ (hvshape kv hkv).2.2.1
    have hthead : ∀ u ∈ ts, u.head? ≠ some ' ' := by
      intro u hu hcon
      rcases htok u hu with hlw | ⟨kv, hkv, rfl⟩
      · have h' : (' ' : Char) ∈ u := List.mem_of_mem_head? hcon
        exact lw_ne_space ' ' (hlw ' ' h') rfl
      · exact (hvshape kv hkv).2.2.2.1 hcon
    have htlast : ∀ u ∈ ts, u.getLast? ≠ some ' ' := by
      intro u hu hcon
      rcases htok u hu with hlw | ⟨kv, hkv, rfl⟩
      · have h' : (' ' : Char) ∈ u := mem_of_getLast?_some hcon
        exact lw_ne_space ' ' (hlw ' ' h') rfl
      · exact (hvshape kv hkv).2.2.2.2 hcon
    refine ⟨?_, joinSpace_chain_space ts hts' htchain hthead htlast, ?_, ?_⟩
    · intro hmem
      rcases mem_joinSpace ts ('|') hmem with ⟨u, hu, hcu⟩ | hsp
      · rcases htok u hu with hlw | ⟨kv, hkv, rfl⟩
        · exact absurd (hlw ('|') hcu) (by decide)
        · exact (hvshape kv hkv).2.1 hcu
      · exact absurd hsp (by decide)
    · cases ts with
      | nil => exact absurd rfl hne
      | cons u ts2 =>
        intro hcon
        rw [joinSpace_head u ts2 (hts' u (List.mem_cons_self _ _))] at hcon
        exact hthead u (List.mem_cons_self _ _) hcon
    · intro hcon
      obtain ⟨u, hu, hul⟩ := joinSpace_getLast ts hts' ' ' hcon
      exact htlast u hu hul

/-! ## Empty normalization collisions (C10) -/

theorem normalizeChars_nil_of_no_word (l : List Char)
    (h : ∀ c ∈ l, jsIsWordChar c = false ∧ c.toNat ≠ 8490 ∧ c.toNat ≠ 304) :
    normalizeChars l = [] := by
  have hlow : (l.map jsToLowerChars).flatten = l := flatten_map_id (fun c hc =>
    jsToLowerChars_eq_self_of_no_word c (h c hc).1 (h c hc).2.1 (h c hc).2.2)
  have hws : ∀ c ∈ l.map punctToSpace, jsIsWhitespace c = true := by
    intro c hc
    obtain ⟨a, ha, rfl⟩ := List.mem_map.mp hc
    cases hwa : jsIsWhitespace a with
    | true => simp [punctToSpace, (h a ha).1, hwa]
    | false =>
      simp [punctToSpace, (h a ha).1, hwa]
      decide
  unfold normalizeChars
  rw [hlow]
  rcases collapseWs_all_ws (l.map punctToSpace) hws with hcw | hcw <;> rw [hcw] <;> decide

/-- Counterexample to C10 as stated: the KELVIN SIGN U+212A is not a
word character, yet `toLowerCase` maps it to the ASCII letter `k`
before the punctuation replacement, so this title without word
characters normalizes to `k`, not to the empty string. -/
theorem kelvin_sign_counterexample :
    (∀ c ∈ (String.mk ['K']).data, jsIsWordChar c = false) ∧
    normalizeTitle (String.mk ['K']) = ("k") ∧
    normalizeTitle (String.mk ['K']) ≠ ("") := by
  decide

/-- C10 (amended): two rows whose titles contain no word characters and
no characters that Unicode-lowercase into word characters (KELVIN SIGN
U+212A and LATIN CAPITAL LETTER I WITH DOT ABOVE U+0130) normalize to
the empty string; with equal canonical start instants they share the
MatchKey `"|" ++ ISO`, and deduplication keeps only the first row. -/
theorem punctuation_only_titles_collide (r₁ r₂ : ShowtimeRow) (i : Int)
    (h₁ : ∀ c ∈ r₁.movie_title.data,
      jsIsWordChar c = false ∧ c.toNat ≠ 8490 ∧ c.toNat ≠ 304)
    (h₂ : ∀ c ∈ r₂.movie_title.data,
      jsIsWordChar c = false ∧ c.toNat ≠ 8490 ∧ c.toNat ≠ 304)
    (hp₁ : parseJsDate (jsTrimStr r₁.start_time) = some i)
    (hp₂ : parseJsDate (jsTrimStr r₂.start_time) = some i) :
    normalizeTitle (jsTrimStr r₁.movie_title) = ("") ∧
    normalizeTitle (jsTrimStr r₂.movie_title) = ("") ∧
    rowKey (csvRowToShowtimeData r₁) = some (("|") ++ toISOString i) ∧
    rowKey (csvRowToShowtimeData r₂) = some (("|") ++ toISOString i) ∧
    dedupeRows [csvRowToShowtimeData r₁, csvRowToShowtimeData r₂] =
      some [((("|") ++ toISOString i), csvRowToShowtimeData r₁)] := by
  have hn₁ : normalizeTitle (jsTrimStr r₁.movie_title) = ("") := by
    unfold normalizeTitle jsTrimStr
    rw [show (String.mk (jsTrimChars r₁.movie_title.data)).data =
        jsTrimChars r₁.movie_title.data from rfl,
      normalizeChars_nil_of_no_word _ (fun c hc => h₁ c (mem_jsTrimChars _ c hc))]
  have hn₂ : normalizeTitle (jsTrimStr r₂.movie_title) = ("") := by
    unfold normalizeTitle jsTrimStr
    rw [show (String.mk (jsTrimChars r₂.movie_title.data)).data =
        jsTrimChars r₂.movie_title.data from rfl,
      normalizeChars_nil_of_no_word _ (fun c hc => h₂ c (mem_jsTrimChars _ c hc))]
  have hk₁ : rowKey (csvRowToShowtimeData r₁) = some (("|") ++ toISOString i) := by
    unfold rowKey makeKey
    rw [show (csvRowToShowtimeData r₁).movieTitle = jsTrimStr r₁.movie_title from rfl,
      show (csvRowToShowtimeData r₁).startTime = jsTrimStr r₁.start_time from rfl,
      hn₁, hp₁]
    rfl
  have hk₂ : rowKey (csvRowToShowtimeData r₂) = some (("|") ++ toISOString i) := by
    unfold rowKey makeKey
    rw [show (csvRowToShowtimeData r₂).movieTitle = jsTrimStr r₂.movie_title from rfl,
      show (csvRowToShowtimeData r₂).startTime = jsTrimStr r₂.start_time from rfl,
      hn₂, hp₂]
    rfl
  refine ⟨hn₁, hn₂, hk₁, hk₂, ?_⟩
  unfold dedupeRows
  rw [dedupeAux_cons_some _ _ _ _ hk₁, if_neg (by simp),
    dedupeAux_cons_some _ _ _ _ hk₂, if_pos (by simp)]
  rfl

/-- A row whose title has no word characters. -/
def bangRow : ShowtimeRow :=
  { sampleRow with movie_title := ("!!!") }

/-- Another word-character-free title, same instant in another ISO
format. -/
def queryRow : ShowtimeRow :=
  { sampleRow with movie_title := ("???"), start_time := ("2025-03-15T20:00:00.000Z") }

/-- Witness for C10: `"!!!"` and `"???"` with the same instant written
in two different ISO formats collide onto the first row. -/
theorem punctuation_only_titles_collide_witness :
    normalizeTitle (jsTrimStr bangRow.movie_title) = ("") ∧
    normalizeTitle (jsTrimStr queryRow.movie_title) = ("") ∧
    rowKey (csvRowToShowtimeData bangRow) = some (("|") ++ toISOString 1742068800000) ∧
    rowKey (csvRowToShowtimeData queryRow) = some (("|") ++ toISOString 1742068800000) ∧
    dedupeRows [csvRowToShowtimeData bangRow, csvRowToShowtimeData queryRow] =
      some [((("|") ++ toISOString 1742068800000), csvRowToShowtimeData bangRow)] :=
  punctuation_only_titles_collide bangRow queryRow 1742068800000
    (by decide) (by decide) (by decide) (by decide)

/-! ## Partition of keys (C1): map invariants -/

theorem dedupeAux_entries (rows : List ShowtimeData) :
    ∀ acc dd, dedupeAux rows acc = some dd →
      (∀ kv ∈ acc, rowKey kv.2 = some kv.1) → ∀ kv ∈ dd, rowKey kv.2 = some kv.1 := by
  induction rows with
  | nil => intro acc dd h hacc; cases h; exact hacc
  | cons r rest ih =>
    intro acc dd h hacc
    cases hk : rowKey r with
    | none => rw [dedupeAux_cons_none r rest acc hk] at h; cases h
    | some k =>
      rw [dedupeAux_cons_some r rest acc k hk] at h
      cases hany : acc.any (fun kv => kv.1 == k) with
      | true =>
        rw [hany, if_pos rfl] at h
        exact ih acc dd h hacc
      | false =>
        rw [hany, if_neg (by simp)] at h
        refine ih _ dd h ?_
        intro kv hkv
        rcases List.mem_append.mp hkv with h1 | h1
        · exact hacc kv h1
        · have hkv' : kv = (k, r) := by simpa using h1
          rw [hkv']
          exact hk

theorem dedupeAux_nodup (rows : List ShowtimeData) :
    ∀ acc dd, dedupeAux rows acc = some dd →
      (acc.map Prod.fst).Nodup → (dd.map Prod.fst).Nodup := by
  induction rows with
  | nil => intro acc dd h hacc; cases h; exact hacc
  | cons r rest ih =>
    intro acc dd h hacc
    cases hk : rowKey r with
    | none => rw [dedupeAux_cons_none r rest acc hk] at h; cases h
    | some k =>
      rw [dedupeAux_cons_some r rest acc k hk] at h
      cases hany : acc.any (fun kv => kv.1 == k) with
      | true =>
        rw [hany, if_pos rfl] at h
        exact ih acc dd h hacc
      | false =>
        rw [hany, if_neg (by simp)] at h
        refine ih _ dd h ?_
        rw [List.map_append]
        rw [List.nodup_append]
        refine ⟨hacc, List.nodup_singleton k, ?_⟩
        intro a ha hb
        have hak : a = k := by simpa using hb
        obtain ⟨kv, hkv, hkva⟩ := List.mem_map.mp ha
        have : acc.any (fun kv => kv.1 == k) = true :=
          List.any_eq_true.mpr ⟨kv, hkv, by simp [hkva, hak]⟩
        rw [hany] at this
        cases this

theorem mem_alSet (m : List (String × α)) (k : String) (v : α) :
    ∀ kv ∈ alSet m k v, kv ∈ m ∨ kv = (k, v) := by
  unfold alSet
  by_cases hany : m.any (fun kv => kv.1 == k) = true
  · rw [if_pos hany]
    intro kv hkv
    obtain ⟨kv0, hkv0, rfl⟩ := List.mem_map.mp hkv
    by_cases hk0 : (kv0.1 == k) = true
    · rw [if_pos hk0]
      right
      have : kv0.1 = k := by simpa using hk0
      rw [this]
    · rw [if_neg hk0]
      exact Or.inl hkv0
  · rw [if_neg hany]
    intro kv hkv
    rcases List.mem_append.mp hkv with h1 | h1
    · exact Or.inl h1
    · exact Or.inr (by simpa using h1)

theorem alSet_keys (m : List (String × α)) (k : String) (v : α) :
    (alSet m k v).map Prod.fst =
      if m.any (fun kv => kv.1 == k) then m.map Prod.fst else m.map Prod.fst ++ [k] := by
  unfold alSet
  by_cases hany : m.any (fun kv => kv.1 == k) = true
  · rw [if_pos hany, if_pos hany, List.map_map]
    apply List.map_congr_left
    intro kv _
    by_cases hk0 : (kv.1 == k) = true
    · have hkk : kv.1 = k := by simpa using hk0
      simp [hkk]
    · have hkk : ¬(kv.1 = k) := by simpa using hk0
      simp [hkk]
  · rw [if_neg hany, if_neg hany, List.map_append]
    rfl

theorem buildExistingAux_cons (s : Showtime) (rest : List Showtime)
    (acc : List (String × ExistingEntry)) :
    buildExistingAux (s :: rest) acc =
      match makeKey (normalizeTitle s.movieTitle) (toISOString s.startTime) with
      | none => none
      | some key => buildExistingAux rest (alSet acc key ⟨s.id, existingToShowtimeData s⟩) :=
  rfl

theorem buildExistingAux_cons_some (s : Showtime) (rest : List Showtime)
    (acc : List (String × ExistingEntry)) (k : String)
    (hk : makeKey (normalizeTitle s.movieTitle) (toISOString s.startTime) = some k) :
    buildExistingAux (s :: rest) acc =
      buildExistingAux rest (alSet acc k ⟨s.id, existingToShowtimeData s⟩) := by
  rw [buildExistingAux_cons, hk]

theorem buildExistingAux_cons_none (s : Showtime) (rest : List Showtime)
    (acc : List (String × ExistingEntry))
    (hk : makeKey (normalizeTitle s.movieTitle) (toISOString s.startTime) = none) :
    buildExistingAux (s :: rest) acc = none := by
  rw [buildExistingAux_cons, hk]

theorem buildExistingAux_entries (shows : List Showtime) :
    ∀ acc em, buildExistingAux shows acc = some em →
      (∀ kv ∈ acc, rowKey kv.2.data = some kv.1) → ∀ kv ∈ em, rowKey kv.2.data = some kv.1 := by
  induction shows with
  | nil => intro acc em h hacc; cases h; exact hacc
  | cons s rest ih =>
    intro acc em h hacc
    cases hk : makeKey (normalizeTitle s.movieTitle) (toISOString s.startTime) with
    | none => rw [buildExistingAux_cons_none s rest acc hk] at h; cases h
    | some k =>
      rw [buildExistingAux_cons_some s rest acc k hk] at h
      refine ih _ em h ?_
      intro kv hkv
      rcases mem_alSet acc k _ kv hkv with h1 | h1
      · exact hacc kv h1
      · rw [h1]
        exact hk

theorem buildExistingAux_nodup (shows : List Showtime) :
    ∀ acc em, buildExistingAux shows acc = some em →
      (acc.map Prod.fst).Nodup → (em.map Prod.fst).Nodup := by
  induction shows with
  | nil => intro acc em h hacc; cases h; exact hacc
  | cons s rest ih =>
    intro acc em h hacc
    cases hk : makeKey (normalizeTitle s.movieTitle) (toISOString s.startTime) with
    | none => rw [buildExistingAux_cons_none s rest acc hk] at h; cases h
    | some k =>
      rw [buildExistingAux_cons_some s rest acc k hk] at h
      refine ih _ em h ?_
      rw [alSet_keys]
      by_cases hany : acc.any (fun kv => kv.1 == k) = true
      · rw [if_pos hany]; exact hacc
      · rw [if_neg hany]
        rw [List.nodup_append]
        refine ⟨hacc, List.nodup_singleton k, ?_⟩
        intro a ha hb
        have hak : a = k := by simpa using hb
        obtain ⟨kv, hkv, hkva⟩ := List.mem_map.mp ha
        exact hany (List.any_eq_true.mpr ⟨kv, hkv, by simp [hkva, hak]⟩)

/-! ## Partition of keys (C1): the classification loop -/

/-- The update produced by one deduped row, when any. -/
def updateEntry (em : List (String × ExistingEntry)) (kv : String × ShowtimeData) :
    Option UpdateAction :=
  match alFind? em kv.1 with
  | some ex =>
    match computeDiffs ex.data kv.2 with
    | some ds => if ds.length > 0 then some ⟨ex.id, kv.2, ds⟩ else none
    | none => none
  | none => none

theorem updateEntry_none (em : List (String × ExistingEntry)) (kv : String × ShowtimeData)
    (hex : alFind? em kv.1 = none) : updateEntry em kv = none := by
  unfold updateEntry
  rw [hex]

theorem updateEntry_eq (em : List (String × ExistingEntry)) (kv : String × ShowtimeData)
    (ex : ExistingEntry) (hex : alFind? em kv.1 = some ex) :
    updateEntry em kv =
      match computeDiffs ex.data kv.2 with
      | some ds => if ds.length > 0 then some ⟨ex.id, kv.2, ds⟩ else none
      | none => none := by
  unfold updateEntry
  rw [hex]

theorem updateEntry_spec (em : List (String × ExistingEntry)) (kv : String × ShowtimeData)
    (u : UpdateAction) (h : updateEntry em kv = some u) :
    u.data = kv.2 ∧ u.diffs ≠ [] := by
  cases hex : alFind? em kv.1 with
  | none => rw [updateEntry_none em kv hex] at h; cases h
  | some ex =>
    rw [updateEntry_eq em kv ex hex] at h
    cases hds : computeDiffs ex.data kv.2 with
    | none => rw [hds] at h; cases h
    | some ds =>
      rw [hds] at h
      have h' : (if ds.length > 0 then some (⟨ex.id, kv.2, ds⟩ : UpdateAction) else none) =
          some u := h
      by_cases hlen : ds.length > 0
      · rw [if_pos hlen] at h'
        have hu : u = ⟨ex.id, kv.2, ds⟩ := (Option.some_inj.mp h').symm
        rw [hu]
        refine ⟨rfl, ?_⟩
        intro hnil
        have hds0 : ds = [] := hnil
        rw [hds0] at hlen
        simp at hlen
      · rw [if_neg hlen] at h'
        cases h'

theorem updateEntry_isSome_find (em : List (String × ExistingEntry))
    (kv : String × ShowtimeData) (h : (updateEntry em kv).isSome = true) :
    (alFind? em kv.1).isSome = true := by
  cases hex : alFind? em kv.1 with
  | none => rw [updateEntry_none em kv hex] at h; cases h
  | some ex => rfl

theorem classifyAux_cons (em : List (String × ExistingEntry)) (kv : String × ShowtimeData)
    (rest : List (String × ShowtimeData)) (st : ClassifyState) :
    classifyAux em (kv :: rest) st =
      match alFind? em kv.1 with
      | some ex =>
        match computeDiffs ex.data kv.2 with
        | some diffs =>
          classifyAux em rest
            ⟨st.adds,
             if diffs.length > 0 then st.updates ++ [⟨ex.id, kv.2, diffs⟩] else st.updates,
             st.matched ++ [kv.1]⟩
        | none => none
      | none => classifyAux em rest ⟨st.adds ++ [⟨kv.2⟩], st.updates, st.matched⟩ :=
  rfl

theorem classifyAux_cons_matched (em : List (String × ExistingEntry))
    (kv : String × ShowtimeData) (rest : List (String × ShowtimeData)) (st : ClassifyState)
    (ex : ExistingEntry) (ds : List FieldDiff)
    (hex : alFind? em kv.1 = some ex) (hds : computeDiffs ex.data kv.2 = some ds) :
    classifyAux em (kv :: rest) st = classifyAux em rest
      ⟨st.adds,
       if ds.length > 0 then st.updates ++ [⟨ex.id, kv.2, ds⟩] else st.updates,
       st.matched ++ [kv.1]⟩ := by
  rw [classifyAux_cons, hex]
  show (match computeDiffs ex.data kv.2 with
    | some diffs =>
      classifyAux em rest
        (⟨st.adds,
         if diffs.length > 0 then st.updates ++ [(⟨ex.id, kv.2, diffs⟩ : UpdateAction)]
         else st.updates,
         st.matched ++ [kv.1]⟩ : ClassifyState)
    | none => none) = _
  rw [hds]

theorem classifyAux_cons_matched_none (em : List (String × ExistingEntry))
    (kv : String × ShowtimeData) (rest : List (String × ShowtimeData)) (st : ClassifyState)
    (ex : ExistingEntry) (hex : alFind? em kv.1 = some ex)
    (hds : computeDiffs ex.data kv.2 = none) :
    classifyAux em (kv :: rest) st = none := by
  rw [classifyAux_cons, hex]
  show (match computeDiffs ex.data kv.2 with
    | some diffs =>
      classifyAux em rest
        (⟨st.adds,
         if diffs.length > 0 then st.updates ++ [(⟨ex.id, kv.2, diffs⟩ : UpdateAction)]
         else st.updates,
         st.matched ++ [kv.1]⟩ : ClassifyState)
    | none => none) = _
  rw [hds]

theorem classifyAux_cons_unmatched (em : List (String × ExistingEntry))
    (kv : String × ShowtimeData) (rest : List (String × ShowtimeData)) (st : ClassifyState)
    (hex : alFind? em kv.1 = none) :
    classifyAux em (kv :: rest) st =
      classifyAux em rest ⟨st.adds ++ [⟨kv.2⟩], st.updates, st.matched⟩ := by
  rw [classifyAux_cons, hex]

theorem classifyAux_spec (em : List (String × ExistingEntry)) (l : List (String × ShowtimeData)) :
    ∀ st₀ st₁, classifyAux em l st₀ = some st₁ →
      st₁.adds = st₀.adds ++
        (l.filter (fun kv => (alFind? em kv.1).isNone)).map (fun kv => (⟨kv.2⟩ : AddAction)) ∧
      st₁.matched = st₀.matched ++ (l.filter (fun kv => (alFind? em kv.1).isSome)).map Prod.fst ∧
      st₁.updates = st₀.updates ++ l.filterMap (updateEntry em) := by
  induction l with
  | nil =>
    intro st₀ st₁ h
    cases h
    simp
  | cons kv rest ih =>
    intro st₀ st₁ h
    cases hex : alFind? em kv.1 with
    | none =>
      rw [classifyAux_cons_unmatched em kv rest st₀ hex] at h
      obtain ⟨ha, hm, hu⟩ := ih _ _ h
      refine ⟨?_, ?_, ?_⟩
      · rw [ha]
        simp [List.filter_cons, hex]
      · rw [hm]
        simp [List.filter_cons, hex]
      · rw [hu]
        simp [List.filterMap_cons, updateEntry_none em kv hex]
    | some ex =>
      cases hds : computeDiffs ex.data kv.2 with
      | none => rw [classifyAux_cons_matched_none em kv rest st₀ ex hex hds] at h; cases h
      | some ds =>
        rw [classifyAux_cons_matched em kv rest st₀ ex ds hex hds] at h
        obtain ⟨ha, hm, hu⟩ := ih _ _ h
        refine ⟨?_, ?_, ?_⟩
        · rw [ha]
          simp [List.filter_cons, hex]
        · rw [hm]
          simp [List.filter_cons, hex]
        · rw [hu, List.filterMap_cons, updateEntry_eq em kv ex hex, hds]
          by_cases hlen : ds.length > 0 <;> simp [hlen]

theorem collectArchives_keys (em : List (String × ExistingEntry)) (matched : List String)
    (hE : ∀ kv ∈ em, rowKey kv.2.data = some kv.1) :
    (collectArchives em matched).filterMap (fun a => rowKey a.data) =
      (em.filter (fun kv => !(matched.contains kv.1))).map Prod.fst := by
  unfold collectArchives
  induction em with
  | nil => rfl
  | cons kv rest ih =>
    have ih' := ih (fun x hx => hE x (List.mem_cons_of_mem kv hx))
    cases hc : matched.contains kv.1 with
    | true =>
      have hmem : kv.1 ∈ matched := by simpa using hc
      simp [List.filterMap_cons, List.filter_cons, hmem] at ih' ⊢
      exact ih'
    | false =>
      have hkey : rowKey kv.2.data = some kv.1 := hE kv (List.mem_cons_self _ _)
      have hmem : kv.1 ∉ matched := by simpa using hc
      simp [List.filterMap_cons, List.filter_cons, hmem, hkey] at ih' ⊢
      exact ih'

/-! ## Partition of keys (C1): key sets and the theorem -/

/-- MatchKeys of the Add bucket, recomputed from the carried data. -/
def addKeys (p : ReconciliationResult) : List String :=
  p.adds.filterMap (fun a => rowKey a.data)

/-- MatchKeys of the Update bucket. -/
def updateKeys (p : ReconciliationResult) : List String :=
  p.updates.filterMap (fun u => rowKey u.data)

/-- MatchKeys of the Archive bucket. -/
def archiveKeys (p : ReconciliationResult) : List String :=
  p.archives.filterMap (fun a => rowKey a.data)

theorem filterMap_eq_map_of_some {l : List α} {f : α → Option β} {g : α → β}
    (h : ∀ a ∈ l, f a = some (g a)) : l.filterMap f = l.map g := by
  induction l with
  | nil => rfl
  | cons a rest ih =>
    rw [List.filterMap_cons, h a (List.mem_cons_self _ _)]
    show g a :: rest.filterMap f = g a :: rest.map g
    rw [ih (fun x hx => h x (List.mem_cons_of_mem a hx))]

theorem alFind?_isSome_iff (m : List (String × α)) (k : String) :
    (alFind? m k).isSome = true ↔ k ∈ m.map Prod.fst := by
  rw [← any_eq_isSome_alFind?, List.any_eq_true]
  constructor
  · rintro ⟨kv, hkv, hbeq⟩
    exact List.mem_map.mpr ⟨kv, hkv, by simpa using hbeq⟩
  · intro hmem
    obtain ⟨kv, hkv, hfst⟩ := List.mem_map.mp hmem
    exact ⟨kv, hkv, by simp [hfst]⟩

theorem alFind?_eq_none_iff (m : List (String × α)) (k : String) :
    alFind? m k = none ↔ k ∉ m.map Prod.fst := by
  constructor
  · intro h hmem
    have hsome := (alFind?_isSome_iff m k).mpr hmem
    rw [h] at hsome
    cases hsome
  · intro h
    cases hfind : alFind? m k with
    | none => rfl
    | some v =>
      exact absurd ((alFind?_isSome_iff m k).mp (by rw [hfind]; rfl)) h

theorem nodup_key_eq {m : List (String × α)} (h : (m.map Prod.fst).Nodup)
    {kv kv' : String × α} (h1 : kv ∈ m) (h2 : kv' ∈ m) (heq : kv.1 = kv'.1) : kv = kv' := by
  induction m with
  | nil => cases h1
  | cons x rest ih =>
    rw [List.map_cons, List.nodup_cons] at h
    rcases List.mem_cons.mp h1 with rfl | h1'
    · rcases List.mem_cons.mp h2 with h2a | h2'
      · exact h2a.symm
      · exact absurd (List.mem_map.mpr ⟨kv', h2', rfl⟩) (heq ▸ h.1)
    · rcases List.mem_cons.mp h2 with rfl | h2'
      · exact absurd (List.mem_map.mpr ⟨kv, h1', rfl⟩) (heq ▸ h.1)
      · exact ih h.2 h1' h2'

theorem updateKeys_filterMap (em : List (String × ExistingEntry))
    (l : List (String × ShowtimeData)) (hE : ∀ kv ∈ l, rowKey kv.2 = some kv.1) :
    (l.filterMap (updateEntry em)).filterMap (fun u => rowKey u.data) =
      (l.filter (fun kv => (updateEntry em kv).isSome)).map Prod.fst := by
  induction l with
  | nil => rfl
  | cons kv rest ih =>
    have ih' := ih (fun x hx => hE x (List.mem_cons_of_mem kv hx))
    cases hue : updateEntry em kv with
    | none => simp [List.filterMap_cons, List.filter_cons, hue, ih']
    | some u =>
      obtain ⟨hud, _⟩ := updateEntry_spec em kv u hue
      have hkey : rowKey u.data = some kv.1 := by
        rw [hud]
        exact hE kv (List.mem_cons_self _ _)
      simp [List.filterMap_cons, List.filter_cons, hue, ih', hkey]

theorem reconcile_eq (csvRows : List ShowtimeRow) (existingShowtimes : List Showtime) :
    reconcile csvRows existingShowtimes =
      match dedupeRows (cleanRows csvRows) with
      | none => none
      | some deduped =>
        match buildExistingMap existingShowtimes with
        | none => none
        | some existingMap =>
          match classifyAux existingMap deduped ⟨[], [], []⟩ with
          | none => none
          | some st => some ⟨st.adds, st.updates, collectArchives existingMap st.matched⟩ :=
  rfl

theorem reconcile_eq_some (csvRows : List ShowtimeRow) (existing : List Showtime)
    (p : ReconciliationResult) (h : reconcile csvRows existing = some p) :
    ∃ dd em stv, dedupeRows (cleanRows csvRows) = some dd ∧
      buildExistingMap existing = some em ∧
      classifyAux em dd ⟨[], [], []⟩ = some stv ∧
      p = ⟨stv.adds, stv.updates, collectArchives em stv.matched⟩ := by
  rw [reconcile_eq] at h
  cases hdd : dedupeRows (cleanRows csvRows) with
  | none =>
    rw [hdd] at h
    have h2 : (none : Option ReconciliationResult) = some p := h
    cases h2
  | some dd =>
    rw [hdd] at h
    cases hem : buildExistingMap existing with
    | none =>
      rw [hem] at h
      have h2 : (none : Option ReconciliationResult) = some p := h
      cases h2
    | some em =>
      rw [hem] at h
      have h2 : (match classifyAux em dd ⟨[], [], []⟩ with
        | none => none
        | some st =>
          some (⟨st.adds, st.updates, collectArchives em st.matched⟩ :
            ReconciliationResult)) = some p := h
      cases hst : classifyAux em dd ⟨[], [], []⟩ with
      | none =>
        rw [hst] at h2
        cases h2
      | some stv =>
        rw [hst] at h2
        have h' : some (⟨stv.adds, stv.updates, collectArchives em stv.matched⟩ :
            ReconciliationResult) = some p := h2
        exact ⟨dd, em, stv, rfl, rfl, hst, (Option.some_inj.mp h').symm⟩

/-- C1: every MatchKey of the deduplicated incoming map or the existing
map lands in exactly one of Adds, Updates, no-op (matched with no
diffs), or Archives; the three buckets never share a key; and every
Update carries a non-empty diff list. -/
theorem reconcile_partitions_keys (csvRows : List ShowtimeRow) (existing : List Showtime)
    (p : ReconciliationResult) (h : reconcile csvRows existing = some p) :
    ∃ dd em, dedupeRows (cleanRows csvRows) = some dd ∧
      buildExistingMap existing = some em ∧
      (∀ key, key ∈ dd.map Prod.fst ∨ key ∈ em.map Prod.fst →
        ((key ∈ addKeys p ∧ key ∉ updateKeys p ∧ key ∉ archiveKeys p) ∨
         (key ∉ addKeys p ∧ key ∈ updateKeys p ∧ key ∉ archiveKeys p) ∨
         (key ∉ addKeys p ∧ key ∉ updateKeys p ∧ key ∈ archiveKeys p) ∨
         (key ∉ addKeys p ∧ key ∉ updateKeys p ∧ key ∉ archiveKeys p ∧
          key ∈ dd.map Prod.fst ∧ key ∈ em.map Prod.fst))) ∧
      (∀ key, ¬(key ∈ addKeys p ∧ key ∈ updateKeys p) ∧
              ¬(key ∈ addKeys p ∧ key ∈ archiveKeys p) ∧
              ¬(key ∈ updateKeys p ∧ key ∈ archiveKeys p)) ∧
      (∀ u ∈ p.updates, u.diffs ≠ []) := by
  obtain ⟨dd, em, st, hdd, hem, hst, hp⟩ := reconcile_eq_some csvRows existing p h
  subst hp
  have hddE : ∀ kv ∈ dd, rowKey kv.2 = some kv.1 :=
    dedupeAux_entries (cleanRows csvRows) [] dd hdd
      (fun kv hkv => absurd hkv (List.not_mem_nil kv))
  have hddN : (dd.map Prod.fst).Nodup :=
    dedupeAux_nodup (cleanRows csvRows) [] dd hdd (by simp)
  have hemE : ∀ kv ∈ em, rowKey kv.2.data = some kv.1 :=
    buildExistingAux_entries existing [] em hem
      (fun kv hkv => absurd hkv (List.not_mem_nil kv))
  obtain ⟨hadds, hmatched, hupdates⟩ := classifyAux_spec em dd ⟨[], [], []⟩ st hst
  simp only [show (⟨[], [], []⟩ : ClassifyState).adds = [] from rfl,
    show (⟨[], [], []⟩ : ClassifyState).updates = [] from rfl,
    show (⟨[], [], []⟩ : ClassifyState).matched = [] from rfl,
    List.nil_append] at hadds hmatched hupdates
  have hA : addKeys ⟨st.adds, st.updates, collectArchives em st.matched⟩ =
      (dd.filter (fun kv => (alFind? em kv.1).isNone)).map Prod.fst := by
    show st.adds.filterMap (fun a => rowKey a.data) = _
    rw [hadds, List.filterMap_map]
    exact filterMap_eq_map_of_some (fun kv hkv => hddE kv (List.mem_of_mem_filter hkv))
  have hU : updateKeys ⟨st.adds, st.updates, collectArchives em st.matched⟩ =
      (dd.filter (fun kv => (updateEntry em kv).isSome)).map Prod.fst := by
    show st.updates.filterMap (fun u => rowKey u.data) = _
    rw [hupdates]
    exact updateKeys_filterMap em dd hddE
  have hR : archiveKeys ⟨st.adds, st.updates, collectArchives em st.matched⟩ =
      (em.filter (fun kv => !(st.matched.contains kv.1))).map Prod.fst := by
    show (collectArchives em st.matched).filterMap (fun a => rowKey a.data) = _
    exact collectArchives_keys em st.matched hemE
  have hD : ∀ u ∈ st.updates, u.diffs ≠ [] := by
    intro u hu
    rw [hupdates] at hu
    obtain ⟨kv, _, hkv⟩ := List.mem_filterMap.mp hu
    exact (updateEntry_spec em kv u hkv).2
  have hAsub : ∀ key, key ∈ addKeys ⟨st.adds, st.updates, collectArchives em st.matched⟩ →
      key ∈ dd.map Prod.fst ∧ key ∉ em.map Prod.fst := by
    intro key hkey
    rw [hA] at hkey
    obtain ⟨kv, hkvf, rfl⟩ := List.mem_map.mp hkey
    have hfil := List.mem_filter.mp hkvf
    refine ⟨List.mem_map.mpr ⟨kv, hfil.1, rfl⟩, ?_⟩
    exact (alFind?_eq_none_iff em kv.1).mp (Option.isNone_iff_eq_none.mp hfil.2)
  have hUsub : ∀ key, key ∈ updateKeys ⟨st.adds, st.updates, collectArchives em st.matched⟩ →
      key ∈ dd.map Prod.fst ∧ key ∈ em.map Prod.fst := by
    intro key hkey
    rw [hU] at hkey
    obtain ⟨kv, hkvf, rfl⟩ := List.mem_map.mp hkey
    have hfil := List.mem_filter.mp hkvf
    exact ⟨List.mem_map.mpr ⟨kv, hfil.1, rfl⟩,
      (alFind?_isSome_iff em kv.1).mp (updateEntry_isSome_find em kv hfil.2)⟩
  have hMmem : ∀ key, key ∈ st.matched ↔
      (key ∈ dd.map Prod.fst ∧ key ∈ em.map Prod.fst) := by
    intro key
    rw [hmatched]
    constructor
    · intro hk
      obtain ⟨kv, hkvf, rfl⟩ := List.mem_map.mp hk
      have hfil := List.mem_filter.mp hkvf
      exact ⟨List.mem_map.mpr ⟨kv, hfil.1, rfl⟩, (alFind?_isSome_iff em kv.1).mp hfil.2⟩
    · rintro ⟨hd, he⟩
      obtain ⟨kv, hkv, rfl⟩ := List.mem_map.mp hd
      exact List.mem_map.mpr
        ⟨kv, List.mem_filter.mpr ⟨hkv, (alFind?_isSome_iff em kv.1).mpr he⟩, rfl⟩
  have hRsub : ∀ key, key ∈ archiveKeys ⟨st.adds, st.updates, collectArchives em st.matched⟩ →
      key ∈ em.map Prod.fst ∧ key ∉ dd.map Prod.fst := by
    intro key hkey
    rw [hR] at hkey
    obtain ⟨kv, hkvf, rfl⟩ := List.mem_map.mp hkey
    have hfil := List.mem_filter.mp hkvf
    refine ⟨List.mem_map.mpr ⟨kv, hfil.1, rfl⟩, ?_⟩
    intro hd
    have hm : kv.1 ∈ st.matched :=
      (hMmem kv.1).mpr ⟨hd, List.mem_map.mpr ⟨kv, hfil.1, rfl⟩⟩
    have hcont : st.matched.contains kv.1 = true := by simpa using hm
    have hbad := hfil.2
    rw [hcont] at hbad
    simp at hbad
  refine ⟨dd, em, hdd, hem, ?_, ?_, hD⟩
  · intro key hkey
    by_cases hd : key ∈ dd.map Prod.fst
    · by_cases he : key ∈ em.map Prod.fst
      · obtain ⟨kv, hkv, hkv1⟩ := List.mem_map.mp hd
        by_cases hue : (updateEntry em kv).isSome = true
        · right; left
          refine ⟨?_, ?_, ?_⟩
          · intro hinA
            exact (hAsub key hinA).2 he
          · rw [hU]
            exact List.mem_map.mpr ⟨kv, List.mem_filter.mpr ⟨hkv, hue⟩, hkv1⟩
          · intro hinR
            exact (hRsub key hinR).2 hd
        · right; right; right
          refine ⟨?_, ?_, ?_, hd, he⟩
          · intro hinA
            exact (hAsub key hinA).2 he
          · intro hinU
            rw [hU] at hinU
            obtain ⟨kv', hkv'f, hkv'1⟩ := List.mem_map.mp hinU
            have hfil := List.mem_filter.mp hkv'f
            have hkveq : kv' = kv := nodup_key_eq hddN hfil.1 hkv (by rw [hkv'1, hkv1])
            rw [hkveq] at hfil
            exact hue hfil.2
          · intro hinR
            exact (hRsub key hinR).2 hd
      · obtain ⟨kv, hkv, hkv1⟩ := List.mem_map.mp hd
        left
        refine ⟨?_, ?_, ?_⟩
        · rw [hA]
          refine List.mem_map.mpr ⟨kv, List.mem_filter.mpr ⟨hkv, ?_⟩, hkv1⟩
          rw [Option.isNone_iff_eq_none, alFind?_eq_none_iff, hkv1]
          exact he
        · intro hinU
          exact he (hUsub key hinU).2
        · intro hinR
          exact (hRsub key hinR).2 hd
    · have he : key ∈ em.map Prod.fst := by
        rcases hkey with h1 | h1
        · exact absurd h1 hd
        · exact h1
      right; right; left
      obtain ⟨kv, hkv, hkv1⟩ := List.mem_map.mp he
      refine ⟨?_, ?_, ?_⟩
      · intro hinA
        exact hd (hAsub key hinA).1
      · intro hinU
        exact hd (hUsub key hinU).1
      · rw [hR]
        refine List.mem_map.mpr ⟨kv, List.mem_filter.mpr ⟨hkv, ?_⟩, hkv1⟩
        have hnm : kv.1 ∉ st.matched := by
          intro hm
          have hboth := (hMmem kv.1).mp hm
          rw [hkv1] at hboth
          exact hd hboth.1
        have hcf : st.matched.contains kv.1 = false := by
          cases hcont : st.matched.contains kv.1
          · rfl
          · exact absurd (by simpa using hcont) hnm
        rw [hcf]
        rfl
  · intro key
    refine ⟨?_, ?_, ?_⟩
    · rintro ⟨ha, hu⟩
      exact (hAsub key ha).2 (hUsub key hu).2
    · rintro ⟨ha, hr⟩
      exact (hRsub key hr).2 (hAsub key ha).1
    · rintro ⟨hu, hr⟩
      exact (hRsub key hr).2 (hUsub key hu).1

/-- The preview produced for the sample row against the sample showtime. -/
def samplePreview : ReconciliationResult :=
  ⟨[], [⟨1, csvRowToShowtimeData sampleRow,
    [⟨("movieTitle"), ("Dune: Part Two"), ("DUNE PART 2")⟩]⟩], []⟩

/-- Witness for C1 on the sample inputs. -/
theorem reconcile_partitions_keys_witness :
    ∃ dd em, dedupeRows (cleanRows [sampleRow]) = some dd ∧
      buildExistingMap [sampleExisting] = some em ∧
      (∀ key, key ∈ dd.map Prod.fst ∨ key ∈ em.map Prod.fst →
        ((key ∈ addKeys samplePreview ∧ key ∉ updateKeys samplePreview ∧
            key ∉ archiveKeys samplePreview) ∨
         (key ∉ addKeys samplePreview ∧ key ∈ updateKeys samplePreview ∧
            key ∉ archiveKeys samplePreview) ∨
         (key ∉ addKeys samplePreview ∧ key ∉ updateKeys samplePreview ∧
            key ∈ archiveKeys samplePreview) ∨
         (key ∉ addKeys samplePreview ∧ key ∉ updateKeys samplePreview ∧
            key ∉ archiveKeys samplePreview ∧
            key ∈ dd.map Prod.fst ∧ key ∈ em.map Prod.fst))) ∧
      (∀ key, ¬(key ∈ addKeys samplePreview ∧ key ∈ updateKeys samplePreview) ∧
              ¬(key ∈ addKeys samplePreview ∧ key ∈ archiveKeys samplePreview) ∧
              ¬(key ∈ updateKeys samplePreview ∧ key ∈ archiveKeys samplePreview)) ∧
      (∀ u ∈ samplePreview.updates, u.diffs ≠ []) :=
  reconcile_partitions_keys [sampleRow] [sampleExisting] samplePreview (by decide)

end Engine
